import Mathlib

/-!
Verification of the doubly-linked circular `list<Type>` of `src/src/list.h`,
instantiated at `Type = int` (`Int` here).  The node arena of the allocator is
modelled as a partial map from addresses (`Nat`) to node records; `nullptr`
for the head pointer is `Option.none`; every pointer dereference goes through
the map and an invalid dereference (null, or a freed cell) makes the whole
operation return `none`, modelling undefined behavior.  Each member function
is translated statement by statement from the source, including the rereads
a C++ statement performs on the current memory state, so aliasing behaves
exactly as in the source.
-/

namespace list

/-- One cell of `list<Type>::Node`: `m_data`, `m_prev`, `m_next`.
Links are addresses into the arena; in the source they are raw pointers that
are never null (a default node self-loops). -/
structure Node where
  data : Int
  prev : Nat
  next : Nat
deriving DecidableEq, Repr

/-- The allocator arena: `none` at an address means not currently allocated. -/
abbrev Heap : Type := Nat → Option Node

/-- Write one cell. -/
def hupd (h : Heap) (a : Nat) (n : Node) : Heap :=
  fun x => if x = a then some n else h x

/-- `traits::deallocate` of one cell. -/
def hfree (h : Heap) (a : Nat) : Heap :=
  fun x => if x = a then none else h x

/-- Global allocation state: the arena plus a counter handing out fresh
addresses (`std::allocator` returns storage distinct from every live cell;
we never reuse addresses, which is a sound model of allocation). -/
structure St where
  heap : Heap
  ctr : Nat

/-- The arena before any allocation. -/
def st0 : St := ⟨fun _ => none, 0⟩

/-- `list::__M_create_node(args...)`: `traits::allocate` one node and
construct it there.  A node constructed from data `d` is
`{m_data = d, m_prev = this, m_next = this}` (the link members use their
default self-loop initializers); the default-constructed node has
`m_data{}`, i.e. `0` for `int`.  Construction of an `int` cannot throw, so
the rollback path of the source is dead here. -/
def __M_create_node (s : St) (d : Int) : St × Nat :=
  (⟨hupd s.heap s.ctr ⟨d, s.ctr, s.ctr⟩, s.ctr + 1⟩, s.ctr)

/-- `list()`: `m_head = __M_create_node();` — allocate the sentinel.
Takes the current arena, returns it plus the new `m_head`. -/
def list_default (s : St) : St × Option Nat :=
  let p := __M_create_node s 0
  (p.1, some p.2)

/-- `Node::push_back(Node* node)` executed with `this` at address `t`:
`node->m_prev = this->m_prev; node->m_next = this;
this->m_prev->m_next = node; this->m_prev = node;`
Every statement rereads the current memory, so aliasing (e.g. `t` its own
`m_prev` in an empty ring) behaves as in the source. -/
def Node_push_back (h : Heap) (t n : Nat) : Option Heap := do
  let tv ← h t
  let nv ← h n
  let h1 := hupd h n { nv with prev := tv.prev }
  let nv1 ← h1 n
  let h2 := hupd h1 n { nv1 with next := t }
  let tv2 ← h2 t
  let pv ← h2 tv2.prev
  let h3 := hupd h2 tv2.prev { pv with next := n }
  let tv3 ← h3 t
  pure (hupd h3 t { tv3 with prev := n })

/-- `Node::push_front(Node* node)` executed with `this` at address `t`:
`node->m_next = this->m_next; node->m_prev = this;
this->m_next->m_prev = node; this->m_next = node;` -/
def Node_push_front (h : Heap) (t n : Nat) : Option Heap := do
  let tv ← h t
  let nv ← h n
  let h1 := hupd h n { nv with next := tv.next }
  let nv1 ← h1 n
  let h2 := hupd h1 n { nv1 with prev := t }
  let tv2 ← h2 t
  let nxv ← h2 tv2.next
  let h3 := hupd h2 tv2.next { nxv with prev := n }
  let tv3 ← h3 t
  pure (hupd h3 t { tv3 with next := n })

/-- `list::push_back(data)`: `assert(m_head != nullptr);
m_head->push_back(__M_create_node(data));`  (a null head is an assertion
failure and a null dereference: undefined). -/
def push_back (s : St) (hd : Option Nat) (d : Int) : Option St := do
  let t ← hd
  let p := __M_create_node s d
  let h ← Node_push_back p.1.heap t p.2
  pure ⟨h, p.1.ctr⟩

/-- `list::push_front(data)`: `assert(m_head != nullptr);
m_head->push_front(__M_create_node(data));` -/
def push_front (s : St) (hd : Option Nat) (d : Int) : Option St := do
  let t ← hd
  let p := __M_create_node s d
  let h ← Node_push_front p.1.heap t p.2
  pure ⟨h, p.1.ctr⟩

/-- `list::empty()`:
`return (m_head != nullptr) || ((m_head->m_prev == m_head) && (m_head->m_next == m_head));`
`||` short-circuits, so a non-null `m_head` yields `true` without touching
memory, and a null `m_head` falls into `m_head->m_prev`, a null dereference. -/
def empty (_s : St) (hd : Option Nat) : Option Bool :=
  match hd with
  | some _ => some true
  | none => none

/-- `list::erase(position)` with the iterator's `m_cursor` at `target`:
`target->m_prev->m_next = target->m_next; target->m_next->m_prev = target->m_prev;
auto next = target->m_next; traits::destroy(..., target);
traits::deallocate(..., target, 1); return next;`
Returns the state and the returned iterator's node address. -/
def erase (s : St) (target : Nat) : Option (St × Nat) := do
  let tv ← s.heap target
  let pv ← s.heap tv.prev
  let h1 := hupd s.heap tv.prev { pv with next := tv.next }
  let tv1 ← h1 target
  let nv ← h1 tv1.next
  let h2 := hupd h1 tv1.next { nv with prev := tv1.prev }
  let tv2 ← h2 target
  pure (⟨hfree h2 target, s.ctr⟩, tv2.next)

/-- `list::pop_front()`: `erase(iterator{m_head->m_next})`. -/
def pop_front (s : St) (hd : Option Nat) : Option St := do
  let a ← hd
  let hv ← s.heap a
  let p ← erase s hv.next
  pure p.1

/-- `list::pop_back()`: `erase(iterator{m_head->m_prev})`. -/
def pop_back (s : St) (hd : Option Nat) : Option St := do
  let a ← hd
  let hv ← s.heap a
  let p ← erase s hv.prev
  pure p.1

/-- The loop of `list::clear()`: `while (not empty()) pop_front();`
Fuel bounds the iteration count; exhaustion (`none`) models divergence. -/
def clear_loop : Nat → St → Option Nat → Option St
  | 0, _, _ => none
  | fuel + 1, s, hd => do
    let e ← empty s hd
    if e then pure s
    else do
      let s1 ← pop_front s hd
      clear_loop fuel s1 hd

/-- `list::clear()`: the pop loop, then
`traits::destroy(m_alloc, m_head); traits::deallocate(m_alloc, m_head, 1);
m_head = nullptr;`  Returns the state and the new head.  Because `empty()`
yields `true` whenever `m_head` is non-null, the loop body never runs: the
sentinel alone is freed and the element nodes are left allocated. -/
def clear (fuel : Nat) (s : St) (hd : Option Nat) : Option (St × Option Nat) := do
  let s1 ← clear_loop fuel s hd
  let a ← hd
  let _ ← s1.heap a
  pure (⟨hfree s1.heap a, s1.ctr⟩, none)

/-- `list::front()`:
`if (empty()) return nullopt; return optional{ref(m_head->m_next->m_data)};`
`some none` is an engaged nullopt return, `some (some v)` returns the value
referenced, `none` is undefined behavior. -/
def front (s : St) (hd : Option Nat) : Option (Option Int) := do
  let e ← empty s hd
  if e then pure none
  else do
    let a ← hd
    let hv ← s.heap a
    let fv ← s.heap hv.next
    pure (some fv.data)

/-- `list::back()`:
`if (empty()) return nullopt; return optional{ref(m_head->m_prev->m_data)};` -/
def back (s : St) (hd : Option Nat) : Option (Option Int) := do
  let e ← empty s hd
  if e then pure none
  else do
    let a ← hd
    let hv ← s.heap a
    let bv ← s.heap hv.prev
    pure (some bv.data)

/-- `list::begin()`: `iterator{m_head->m_next}` (dereferences `m_head`). -/
def begin (s : St) (hd : Option Nat) : Option Nat := do
  let a ← hd
  let hv ← s.heap a
  pure hv.next

/-- `Iterator::operator++`: `m_cursor = m_cursor->m_next`. -/
def iter_next (h : Heap) (cur : Nat) : Option Nat := do
  let cv ← h cur
  pure cv.next

/-- `Iterator::operator*`: the `m_data` of the current node. -/
def iter_deref (h : Heap) (cur : Nat) : Option Int := do
  let cv ← h cur
  pure cv.data

/-- `k`-fold `operator++` from a node address (`0` steps returns it). -/
def nextPow (h : Heap) : Nat → Nat → Option Nat
  | a, 0 => some a
  | a, k + 1 => do
    let nd ← h a
    nextPow h nd.next k

/-- The counting loop of `std::distance(begin(), end())` for this
bidirectional iterator: advance by `m_next` until the sentinel, counting. -/
def dist_loop (h : Heap) : Nat → Nat → Nat → Option Nat
  | 0, _, _ => none
  | fuel + 1, cur, last =>
    if cur = last then pure 0
    else do
      let cv ← h cur
      let r ← dist_loop h fuel cv.next last
      pure (r + 1)

/-- `list::size()`: `std::distance(begin(), end())` with
`begin() = iterator{m_head->m_next}` and `end() = iterator{m_head}`. -/
def size (fuel : Nat) (s : St) (hd : Option Nat) : Option Nat := do
  let a ← hd
  let hv ← s.heap a
  dist_loop s.heap fuel hv.next a

/-- Observable front-to-back element sequence: the values `*it` yields while
iterating from `begin()` to `end()`. -/
def read_loop (h : Heap) : Nat → Nat → Nat → Option (List Int)
  | 0, _, _ => none
  | fuel + 1, cur, last =>
    if cur = last then pure []
    else do
      let cv ← h cur
      let r ← read_loop h fuel cv.next last
      pure (cv.data :: r)

/-- Traverse the whole list reading every element. -/
def readSeq (fuel : Nat) (s : St) (hd : Option Nat) : Option (List Int) := do
  let a ← hd
  let hv ← s.heap a
  read_loop s.heap fuel hv.next a

/-- Loop of `list::__M_clone`:
`while (source != end) { cursor->push_back(__M_create_node(source->m_data));
source = source->m_next; }` -/
def clone_loop : Nat → St → Nat → Nat → Nat → Option St
  | 0, _, _, _, _ => none
  | fuel + 1, s, cursor, source, endA =>
    if source = endA then pure s
    else do
      let sv ← s.heap source
      let p := __M_create_node s sv.data
      let h ← Node_push_back p.1.heap cursor p.2
      let s2 : St := ⟨h, p.1.ctr⟩
      let sv2 ← s2.heap source
      clone_loop fuel s2 cursor sv2.next endA

/-- `list(const list& outer)`: `m_head = __M_clone(outer.m_head->m_next)`.
`source` is a node link, hence never null, so the `source == nullptr` branch
of `__M_clone` is dead; the clone allocates its own sentinel (`cursor`),
reads `end = source->m_prev`, and appends a copy of each visited node.
Returns the state and the copy's head. -/
def copy_ctor (fuel : Nat) (s : St) (hd : Option Nat) : Option (St × Option Nat) := do
  let a ← hd
  let hv ← s.heap a
  let p := __M_create_node s 0
  let sv ← p.1.heap hv.next
  let s2 ← clone_loop fuel p.1 p.2 hv.next sv.prev
  pure (s2, some p.2)

/-- Loop of `list::__M_range_init(first, last)` where the range is another
list's node range: `for (; first != last; first = ranges::next(first))
m_head->push_back(__M_create_node(*first));` -/
def range_init_loop : Nat → St → Option Nat → Nat → Nat → Option St
  | 0, _, _, _, _ => none
  | fuel + 1, s, hd, first, last =>
    if first = last then pure s
    else do
      let a ← hd
      let fv ← s.heap first
      let p := __M_create_node s fv.data
      let h ← Node_push_back p.1.heap a p.2
      let s2 : St := ⟨h, p.1.ctr⟩
      let fv2 ← s2.heap first
      range_init_loop fuel s2 hd fv2.next last

/-- Loop of the range overload of `list::insert_before(position, first, last)`:
`while (first != last) insert_before(position, *first++);` with the single
insert doing `position.m_cursor->push_back(__M_create_node(data))`. -/
def insert_before_loop : Nat → St → Nat → Nat → Nat → Option St
  | 0, _, _, _, _ => none
  | fuel + 1, s, pos, first, last =>
    if first = last then pure s
    else do
      let fv ← s.heap first
      let p := __M_create_node s fv.data
      let h ← Node_push_back p.1.heap pos p.2
      insert_before_loop fuel ⟨h, p.1.ctr⟩ pos fv.next last

/-- Loop of `list::erase(first, last)`: `while (first != last) erase(first++);
return last;` (the post-increment reads `first->m_next` before the node is
freed). -/
def erase_range_loop : Nat → St → Nat → Nat → Option (St × Nat)
  | 0, _, _, _ => none
  | fuel + 1, s, first, last =>
    if first = last then pure (s, last)
    else do
      let fv ← s.heap first
      let p ← erase s first
      erase_range_loop fuel p.1 fv.next last

/-- The element-wise value-assignment loop of `list::__M_assign`:
`while ((first != last) && (begin != end)) { *begin = *first;
begin = ranges::next(begin); first = ranges::next(first); }`
then either `insert_before(begin, first, last)` or `erase(begin, end)`. -/
def assign_loop : Nat → St → Option Nat → Nat → Nat → Nat → Nat → Option (St × Option Nat)
  | 0, _, _, _, _, _, _ => none
  | fuel + 1, s, hd, b, e, first, last =>
    if first ≠ last ∧ b ≠ e then do
      let fv ← s.heap first
      let bv ← s.heap b
      let h1 := hupd s.heap b { bv with data := fv.data }
      let bv1 ← h1 b
      let fv1 ← h1 first
      assign_loop fuel ⟨h1, s.ctr⟩ hd bv1.next e fv1.next last
    else if first ≠ last then do
      let s1 ← insert_before_loop (fuel + 1) s b first last
      pure (s1, hd)
    else do
      let p ← erase_range_loop (fuel + 1) s b e
      pure (p.1, hd)

/-- `list::__M_assign(first, last)` with `first`/`last` the source list's
`begin()`/`end()` node addresses:
`if (first == last) { clear(); return; }
if (empty()) { __M_range_init(first, last); return; }` then the value-assign
loop above.  Returns state and this list's head. -/
def __M_assign (fuel : Nat) (s : St) (hd : Option Nat) (first last : Nat) :
    Option (St × Option Nat) := do
  if first = last then
    clear fuel s hd
  else do
    let e ← empty s hd
    if e then do
      let s1 ← range_init_loop fuel s hd first last
      pure (s1, hd)
    else do
      let a ← hd
      let hv ← s.heap a
      assign_loop fuel s hd hv.next a first last

/-- `list::operator=(const list& rhs)` for distinct objects: with
`std::allocator`, `propagate_on_container_copy_assignment` is `false_type`,
so `__M_copy_assign(rhs, false_type)` runs: `clear();
__M_assign(ranges::begin(rhs), ranges::end(rhs));` where
`ranges::begin(rhs) = iterator{rhs.m_head->m_next}` and
`ranges::end(rhs) = iterator{rhs.m_head}`. -/
def copy_assign (fuel : Nat) (s : St) (hd rhsHd : Option Nat) :
    Option (St × Option Nat) := do
  let p ← clear fuel s hd
  let b ← rhsHd
  let bv ← p.1.heap b
  __M_assign fuel p.1 p.2 bv.next b

/-- Body of the friend `swap` declared inside `list` (the declaration's
parameter type is `forward_list&`, a copy-paste slip — see the claim on
`swap`): with `std::allocator`, `propagate_on_container_swap` is
`false_type` and `is_always_equal` holds, so only
`std::swap(lhs.m_head, rhs.m_head)` executes; the arena is untouched. -/
def swap_body (ha hb : Option Nat) : Option Nat × Option Nat := (hb, ha)

/-! Concrete executions used by the claims: a default-constructed
`list<int>` lives at sentinel address `0`. -/

/-- A default-constructed list in a fresh arena (sentinel at address 0). -/
def sc0 : St × Option Nat := list_default st0

/-- The list `[1]`: `push_back(1)` on the default-constructed list. -/
def S1 : St := (push_back sc0.1 sc0.2 1).getD st0

/-- The scenario `push_back(1); push_back(2); push_front(0);` on a
default-constructed list of integers. -/
def sc3 : Option St := do
  let s1 ← push_back sc0.1 sc0.2 1
  let s2 ← push_back s1 sc0.2 2
  push_front s2 sc0.2 0

/-- The state reached by the scenario above (list `[0, 1, 2]`). -/
def S3 : St := sc3.getD st0

/-- Arena holding two independent lists: `a = [5]` (head `ha`) built first,
then `b = [1, 2]` (head `hb`). -/
def scAB : Option (St × (Option Nat × Option Nat)) := do
  let pa := list_default st0
  let sa ← push_back pa.1 pa.2 5
  let pb := list_default sa
  let sb1 ← push_back pb.1 pb.2 1
  let sb2 ← push_back sb1 pb.2 2
  pure (sb2, (pa.2, pb.2))

/-- The two-list arena and the heads of `a` and `b`. -/
def SAB : St × (Option Nat × Option Nat) := scAB.getD (st0, (none, none))

/-- `C1`: for every list, `empty()` returns true iff the sentinel's
`next`/`prev` links both point to the sentinel itself.  REFUTED on the code:
on the one-element list `[1]` the sentinel (address 0) links to the element
node (address 1) in both directions, yet `empty()` returns `true` — the
condition `(m_head != nullptr) || (links self-loop)` short-circuits to
`true` for every live list. -/
theorem empty_inverted_on_nonempty_list :
    readSeq 4 S1 (some 0) = some [1] ∧
    (S1.heap 0).map Node.next = some 1 ∧
    (S1.heap 0).map Node.prev = some 1 ∧
    empty S1 (some 0) = some true := by decide

/-- `C2`: `front()`/`back()` must yield the first/last element of a
non-empty list.  REFUTED on the code: on the non-empty list `[1]` both
return an engaged-empty result (`nullopt`), because the inverted `empty()`
makes the emptiness test inside them always true. -/
theorem front_back_nullopt_on_nonempty_list :
    readSeq 4 S1 (some 0) = some [1] ∧
    front S1 (some 0) = some none ∧
    back S1 (some 0) = some none := by decide

/-- `C3`: `clear()` on a non-empty list must pop every element, keep the
sentinel allocated and self-linked, and leave the list usable.  REFUTED on
the code: on `[1]` the pop loop never runs (`empty()` is inverted), the
sentinel at address 0 is destroyed and deallocated, `m_head` becomes null,
the element node at address 1 stays allocated (it leaks), and a subsequent
`push_back` dereferences the null head (undefined). -/
theorem clear_frees_sentinel_leaks_elements :
    readSeq 4 S1 (some 0) = some [1] ∧
    (clear 2 S1 (some 0)).map Prod.snd = some none ∧
    (clear 2 S1 (some 0)).map (fun p => p.1.heap 0) = some none ∧
    (clear 2 S1 (some 0)).map (fun p => p.1.heap 1) = some (some ⟨1, 0, 0⟩) ∧
    ((clear 2 S1 (some 0)).bind fun p => push_back p.1 p.2 5).isSome = false := by
  decide

/-- `C4`: `push_back(1); push_back(2); push_front(0);` on an empty list of
integers gives the sequence `[0, 1, 2]` with `size() == 3`, `front()`
referring to `0` and `back()` referring to `2`.  PARTLY REFUTED on the code:
the sequence is `[0, 1, 2]` and `size()` is `3`, but `front()` and `back()`
both return the engaged-empty `nullopt` (inverted `empty()`), not references
to `0` and `2`. -/
theorem scenario_sequence_but_access_nullopt :
    readSeq 5 S3 (some 0) = some [0, 1, 2] ∧
    size 5 S3 (some 0) = some 3 ∧
    front S3 (some 0) = some none ∧
    back S3 (some 0) = some none := by decide

/-- `C7`: after `a = b` the element sequence of `a` must equal `b`'s.
REFUTED on the code: with `a = [5]` and `b = [1, 2]` live in the arena,
copy assignment first runs `clear()` — which (inverted `empty()`) frees
`a`'s sentinel and nulls its head — and then `__M_assign` tests
`this->empty()` through the null head: a null dereference.  The whole
operation is undefined (`isSome = false`); no state with `a = [1, 2]` is
produced.  The same happens for shorter, longer or equal prior lengths,
since the `clear()`/null-head path does not depend on the lengths. -/
theorem copy_assign_derefs_null_head :
    (scAB.bind fun t => readSeq 4 t.1 t.2.1) = some [5] ∧
    (scAB.bind fun t => readSeq 4 t.1 t.2.2) = some [1, 2] ∧
    (scAB.bind fun t => copy_assign 8 t.1 t.2.1 t.2.2).isSome = false := by decide

/-! The representation invariant: a well-formed ring is a sentinel plus the
element addresses in order, with inverse `prev`/`next` links closing the
cycle.  All parts are decidable so that concrete states can be checked by
evaluation. -/

/-- Last address of a segment whose predecessor is `p` (`p` when empty). -/
def lastA (p : Nat) (as : List Nat) : Nat := as.getLast?.getD p

/-- First address of a segment (`stop` when the segment is empty). -/
def headA (as : List Nat) (stop : Nat) : Nat := as.headD stop

/-- Checker for a doubly-linked heap segment: starting at `first` (whose
`m_prev` must be `p`), the addresses `as` hold the data `xs` in order,
linked by `m_next`, and the last node's `m_next` is `stop` (`first = stop`
for the empty segment). -/
def segB (h : Heap) : Nat → Nat → List Nat → List Int → Nat → Bool
  | _, first, [], [], stop => first == stop
  | p, first, a :: as, x :: xs, stop =>
    (a == first) &&
      (match h a with
       | some nd => (nd.data == x) && (nd.prev == p) && segB h a nd.next as xs stop
       | none => false)
  | _, _, _, _, _ => false

/-- Ring-closing checker at the sentinel `a0`: its `m_prev` is the last
element (or itself) and from its `m_next` the elements `as`/`xs` run back
to `a0`. -/
def sentB (s : St) (a0 : Nat) (as : List Nat) (xs : List Int) : Bool :=
  match s.heap a0 with
  | some nd => (nd.prev == lastA a0 as) && segB s.heap a0 nd.next as xs a0
  | none => false

/-- The list representation invariant: `a0` is the sentinel address, `as`
the element addresses front-to-back holding data `xs`; all cells are
pairwise distinct, previously allocated (below the counter), and form one
circular doubly-linked ring through the sentinel. -/
def listRep (s : St) (a0 : Nat) (as : List Nat) (xs : List Int) : Prop :=
  (a0 :: as).Nodup ∧ (∀ a ∈ a0 :: as, a < s.ctr) ∧ sentB s a0 as xs = true

instance listRep_decidable (s : St) (a0 : Nat) (as : List Nat) (xs : List Int) :
    Decidable (listRep s a0 as xs) := by
  unfold listRep
  infer_instance

theorem segB_nil_iff {h : Heap} {p f stop : Nat} :
    segB h p f [] [] stop = true ↔ f = stop := by
  simp [segB]

theorem segB_cons_iff {h : Heap} {p f a stop : Nat} {as : List Nat} {x : Int}
    {xs : List Int} :
    segB h p f (a :: as) (x :: xs) stop = true ↔
      a = f ∧ ∃ nd, h a = some nd ∧ nd.data = x ∧ nd.prev = p ∧
        segB h a nd.next as xs stop = true := by
  cases hh : h a with
  | none => simp [segB, hh]
  | some nd => simp [segB, hh, and_assoc]

theorem segB_xs_nil {h : Heap} {p f a stop : Nat} {as : List Nat} :
    segB h p f (a :: as) [] stop = false := by
  simp [segB]

theorem segB_as_nil {h : Heap} {p f stop : Nat} {x : Int} {xs : List Int} :
    segB h p f [] (x :: xs) stop = false := by
  simp [segB]

theorem segB_length {h : Heap} :
    ∀ {as : List Nat} {xs : List Int} {p f stop : Nat},
      segB h p f as xs stop = true → as.length = xs.length := by
  intro as
  induction as with
  | nil =>
    intro xs p f stop hs
    cases xs with
    | nil => rfl
    | cons x xs => simp [segB_as_nil] at hs
  | cons a as ih =>
    intro xs p f stop hs
    cases xs with
    | nil => simp [segB_xs_nil] at hs
    | cons x xs =>
      rcases segB_cons_iff.mp hs with ⟨_, nd, _, _, _, htail⟩
      simpa using ih htail

theorem segB_frame {h h' : Heap} :
    ∀ {as : List Nat} {xs : List Int} {p f stop : Nat},
      (∀ a ∈ as, h' a = h a) →
      segB h p f as xs stop = true → segB h' p f as xs stop = true := by
  intro as
  induction as with
  | nil =>
    intro xs p f stop _ hs
    cases xs with
    | nil => exact hs
    | cons x xs => simp [segB_as_nil] at hs
  | cons a as ih =>
    intro xs p f stop hagree hs
    cases xs with
    | nil => simp [segB_xs_nil] at hs
    | cons x xs =>
      rcases segB_cons_iff.mp hs with ⟨haf, nd, hha, hd, hp, htail⟩
      refine segB_cons_iff.mpr ⟨haf, nd, ?_, hd, hp, ?_⟩
      · rw [hagree a (List.mem_cons_self a as)]; exact hha
      · exact ih (fun b hb => hagree b (List.mem_cons_of_mem a hb)) htail

theorem segB_mem_isSome {h : Heap} :
    ∀ {as : List Nat} {xs : List Int} {p f stop a : Nat},
      a ∈ as → segB h p f as xs stop = true → (h a).isSome := by
  intro as
  induction as with
  | nil => intro xs p f stop a ha; cases ha
  | cons b as ih =>
    intro xs p f stop a ha hs
    cases xs with
    | nil => simp [segB_xs_nil] at hs
    | cons x xs =>
      rcases segB_cons_iff.mp hs with ⟨_, nd, hhb, _, _, htail⟩
      rcases List.mem_cons.mp ha with h1 | h2
      · subst h1; simp [hhb]
      · exact ih h2 htail

theorem segB_join {h : Heap} :
    ∀ {l1 : List Nat} {y1 : List Int} {l2 : List Nat} {y2 : List Int}
      {p f m stop : Nat},
      segB h p f l1 y1 m = true →
      segB h (lastA p l1) m l2 y2 stop = true →
      segB h p f (l1 ++ l2) (y1 ++ y2) stop = true := by
  intro l1
  induction l1 with
  | nil =>
    intro y1 l2 y2 p f m stop h1 h2
    cases y1 with
    | nil =>
      have : f = m := segB_nil_iff.mp h1
      subst this
      simpa [lastA] using h2
    | cons x xs => simp [segB_as_nil] at h1
  | cons a as ih =>
    intro y1 l2 y2 p f m stop h1 h2
    cases y1 with
    | nil => simp [segB_xs_nil] at h1
    | cons x xs =>
      rcases segB_cons_iff.mp h1 with ⟨haf, nd, hha, hd, hp, htail⟩
      refine segB_cons_iff.mpr ⟨haf, nd, hha, hd, hp, ?_⟩
      have h2' : segB h (lastA a as) m l2 y2 stop = true := by
        cases as with
        | nil =>
          have : xs = [] := by
            have := segB_length htail
            cases xs with
            | nil => rfl
            | cons _ _ => simp at this
          subst this
          have : nd.next = m := segB_nil_iff.mp htail
          simpa [lastA] using h2
        | cons b bs => simpa [lastA, List.getLast?_cons_cons] using h2
      exact ih htail h2'

theorem segB_snoc {h : Heap} {as : List Nat} {xs : List Int}
    {p f n stop : Nat} {d : Int}
    (h1 : segB h p f as xs n = true)
    (h2 : h n = some ⟨d, lastA p as, stop⟩) :
    segB h p f (as ++ [n]) (xs ++ [d]) stop = true := by
  refine segB_join h1 (segB_cons_iff.mpr ⟨rfl, ⟨d, lastA p as, stop⟩, h2, rfl, rfl, ?_⟩)
  exact segB_nil_iff.mpr rfl

theorem hupd_same {h : Heap} {a : Nat} {n : Node} : hupd h a n a = some n := by
  simp [hupd]

theorem hupd_ne {h : Heap} {a x : Nat} {n : Node} (hne : x ≠ a) :
    hupd h a n x = h x := by
  simp [hupd, hne]

theorem hfree_same {h : Heap} {a : Nat} : hfree h a a = none := by
  simp [hfree]

theorem hfree_ne {h : Heap} {a x : Nat} (hne : x ≠ a) : hfree h a x = h x := by
  simp [hfree, hne]

theorem lastA_singleton {p a : Nat} : lastA p [a] = a := by simp [lastA]

theorem lastA_cons_cons {p a b : Nat} {bs : List Nat} :
    lastA p (a :: b :: bs) = lastA a (b :: bs) := by
  simp [lastA, List.getLast?_cons_cons,
    List.getLast?_eq_getLast_of_ne_nil (List.cons_ne_nil b bs)]

theorem lastA_mem {p : Nat} : ∀ {as : List Nat}, as ≠ [] → lastA p as ∈ as := by
  intro as
  induction as with
  | nil => intro hne; exact absurd rfl hne
  | cons a bs ih =>
    intro _
    cases bs with
    | nil => simp [lastA]
    | cons b cs =>
      rw [lastA_cons_cons]
      exact List.mem_cons_of_mem a (ih (by simp))

/-- Rewriting the `m_next` of a segment's last node retargets the segment's
stop; the rest of the segment is unchanged (the last address occurs once). -/
theorem segB_retarget {h : Heap} :
    ∀ {as : List Nat} {xs : List Int} {p f stop : Nat},
      as ≠ [] → as.Nodup →
      segB h p f as xs stop = true →
      ∃ nd, h (lastA p as) = some nd ∧ nd.next = stop ∧
        ∀ st2, segB (hupd h (lastA p as) { nd with next := st2 }) p f as xs st2 = true := by
  intro as
  induction as with
  | nil => intro xs p f stop hne; exact absurd rfl hne
  | cons a bs ih =>
    intro xs p f stop _ hnd hs
    cases xs with
    | nil => simp [segB_xs_nil] at hs
    | cons x xs =>
      rcases segB_cons_iff.mp hs with ⟨haf, nd, hha, hdta, hpr, htail⟩
      cases bs with
      | nil =>
        have hxs : xs = [] := by
          have := segB_length htail
          cases xs with
          | nil => rfl
          | cons _ _ => simp at this
        subst hxs
        have hstop : nd.next = stop := segB_nil_iff.mp htail
        refine ⟨nd, by simpa [lastA_singleton] using hha, hstop, ?_⟩
        intro st2
        rw [lastA_singleton]
        refine segB_cons_iff.mpr ⟨haf, { nd with next := st2 }, hupd_same, hdta, hpr, ?_⟩
        exact segB_nil_iff.mpr rfl
      | cons b cs =>
        have hanotin : a ∉ b :: cs := (List.nodup_cons.mp hnd).1
        have hbnd : (b :: cs).Nodup := (List.nodup_cons.mp hnd).2
        rcases ih (by simp) hbnd htail with ⟨nd2, hh2, hnx2, hall⟩
        have hlmem : lastA a (b :: cs) ∈ b :: cs := lastA_mem (by simp)
        have hlne : a ≠ lastA a (b :: cs) := fun he => hanotin (he ▸ hlmem)
        refine ⟨nd2, by rw [lastA_cons_cons]; exact hh2, hnx2, ?_⟩
        intro st2
        rw [lastA_cons_cons]
        refine segB_cons_iff.mpr ⟨haf, nd, ?_, hdta, hpr, hall st2⟩
        rw [hupd_ne hlne]; exact hha

/-- Rewriting the `m_prev` of a segment's first node changes the segment's
predecessor; the rest of the segment is unchanged. -/
theorem segB_reprev {h : Heap} {a f stop : Nat} {as : List Nat} {x : Int}
    {xs : List Int} {p : Nat}
    (hnotin : a ∉ as)
    (hs : segB h p f (a :: as) (x :: xs) stop = true) (p2 : Nat) :
    ∃ nd, h a = some nd ∧
      segB (hupd h a { nd with prev := p2 }) p2 f (a :: as) (x :: xs) stop = true := by
  rcases segB_cons_iff.mp hs with ⟨haf, nd, hha, hdta, hpr, htail⟩
  refine ⟨nd, hha, segB_cons_iff.mpr ⟨haf, { nd with prev := p2 }, hupd_same, hdta, rfl, ?_⟩⟩
  exact segB_frame (fun b hb => hupd_ne (fun he => hnotin (he ▸ hb))) htail

/-- A segment over an append splits at the boundary. -/
theorem segB_split {h : Heap} :
    ∀ {l1 : List Nat} {y1 : List Int} {l2 : List Nat} {y2 : List Int}
      {p f stop : Nat},
      l1.length = y1.length →
      segB h p f (l1 ++ l2) (y1 ++ y2) stop = true →
      segB h p f l1 y1 (headA l2 stop) = true ∧
      segB h (lastA p l1) (headA l2 stop) l2 y2 stop = true := by
  intro l1
  induction l1 with
  | nil =>
    intro y1 l2 y2 p f stop hlen hs
    have hy1 : y1 = [] := by
      cases y1 with
      | nil => rfl
      | cons _ _ => simp at hlen
    subst hy1
    simp only [List.nil_append] at hs
    have hf : f = headA l2 stop := by
      cases l2 with
      | nil =>
        cases y2 with
        | nil => simpa [headA] using segB_nil_iff.mp hs
        | cons _ _ => simp [segB_as_nil] at hs
      | cons b bs =>
        cases y2 with
        | nil => simp [segB_xs_nil] at hs
        | cons _ _ => simp [headA, (segB_cons_iff.mp hs).1.symm]
    constructor
    · exact segB_nil_iff.mpr hf
    · rw [← hf]; simpa [lastA] using hs
  | cons a bs ih =>
    intro y1 l2 y2 p f stop hlen hs
    cases y1 with
    | nil => simp at hlen
    | cons x xs =>
      simp only [List.cons_append] at hs
      rcases segB_cons_iff.mp hs with ⟨haf, nd, hha, hdta, hpr, htail⟩
      have hlen' : bs.length = xs.length := by simpa using hlen
      rcases ih hlen' htail with ⟨h1, h2⟩
      constructor
      · exact segB_cons_iff.mpr ⟨haf, nd, hha, hdta, hpr, h1⟩
      · cases bs with
        | nil =>
          have hxs : xs = [] := by
            cases xs with
            | nil => rfl
            | cons _ _ => simp at hlen'
          subst hxs
          have : nd.next = headA l2 stop := segB_nil_iff.mp h1
          rw [lastA_singleton]
          rw [this] at htail
          exact h2
        | cons b cs => rw [lastA_cons_cons]; exact h2

/-- Each position of a segment holds the corresponding datum. -/
theorem segB_data {h : Heap} :
    ∀ {as : List Nat} {xs : List Int} {p f stop : Nat},
      segB h p f as xs stop = true →
      ∀ j, j < as.length →
        ∃ nd, h (as.getD j 0) = some nd ∧ nd.data = xs.getD j 0 := by
  intro as
  induction as with
  | nil => intro xs p f stop _ j hj; simp at hj
  | cons a bs ih =>
    intro xs p f stop hs j hj
    cases xs with
    | nil => simp [segB_xs_nil] at hs
    | cons x xs =>
      rcases segB_cons_iff.mp hs with ⟨_, nd, hha, hdta, _, htail⟩
      cases j with
      | zero => exact ⟨nd, by simpa using hha, by simpa using hdta⟩
      | succ j =>
        have := ih htail j (by simpa using hj)
        simpa using this

/-- Walking `m_next` from the first node visits the segment's addresses in
order and lands on `stop` after exactly the segment's length. -/
theorem segB_walk {h : Heap} :
    ∀ {as : List Nat} {xs : List Int} {p f stop : Nat},
      segB h p f as xs stop = true →
      (∀ i, i < as.length → nextPow h f i = some (as.getD i 0)) ∧
      nextPow h f as.length = some stop := by
  intro as
  induction as with
  | nil =>
    intro xs p f stop hs
    cases xs with
    | nil => exact ⟨fun i hi => by simp at hi, by simpa [nextPow] using segB_nil_iff.mp hs⟩
    | cons _ _ => simp [segB_as_nil] at hs
  | cons a bs ih =>
    intro xs p f stop hs
    cases xs with
    | nil => simp [segB_xs_nil] at hs
    | cons x xs =>
      rcases segB_cons_iff.mp hs with ⟨haf, nd, hha, _, _, htail⟩
      subst haf
      rcases ih htail with ⟨hwalk, hstop⟩
      constructor
      · intro i hi
        cases i with
        | zero => simp [nextPow]
        | succ i =>
          have := hwalk i (by simpa using hi)
          simpa [nextPow, hha] using this
      · simpa [nextPow, hha, List.length_cons] using hstop

/-- The `std::distance` loop counts a segment that avoids its stop. -/
theorem segB_dist {h : Heap} :
    ∀ {as : List Nat} {xs : List Int} {p f stop : Nat},
      (∀ a ∈ as, a ≠ stop) →
      segB h p f as xs stop = true →
      ∀ fuel, as.length < fuel → dist_loop h fuel f stop = some as.length := by
  intro as
  induction as with
  | nil =>
    intro xs p f stop _ hs fuel hfuel
    cases xs with
    | nil =>
      have hf : f = stop := segB_nil_iff.mp hs
      cases fuel with
      | zero => simp at hfuel
      | succ fuel => simp [dist_loop, hf]
    | cons _ _ => simp [segB_as_nil] at hs
  | cons a bs ih =>
    intro xs p f stop hne hs fuel hfuel
    cases xs with
    | nil => simp [segB_xs_nil] at hs
    | cons x xs =>
      rcases segB_cons_iff.mp hs with ⟨haf, nd, hha, _, _, htail⟩
      subst haf
      cases fuel with
      | zero => simp at hfuel
      | succ fuel =>
        have hane : a ≠ stop := hne a (List.mem_cons_self a bs)
        have := ih (fun b hb => hne b (List.mem_cons_of_mem a hb)) htail fuel
          (by simpa using hfuel)
        simp [dist_loop, hane, hha, this]

/-- Reading a segment that avoids its stop yields its data. -/
theorem segB_read {h : Heap} :
    ∀ {as : List Nat} {xs : List Int} {p f stop : Nat},
      (∀ a ∈ as, a ≠ stop) →
      segB h p f as xs stop = true →
      ∀ fuel, as.length < fuel → read_loop h fuel f stop = some xs := by
  intro as
  induction as with
  | nil =>
    intro xs p f stop _ hs fuel hfuel
    cases xs with
    | nil =>
      have hf : f = stop := segB_nil_iff.mp hs
      cases fuel with
      | zero => simp at hfuel
      | succ fuel => simp [read_loop, hf]
    | cons _ _ => simp [segB_as_nil] at hs
  | cons a bs ih =>
    intro xs p f stop hne hs fuel hfuel
    cases xs with
    | nil => simp [segB_xs_nil] at hs
    | cons x xs =>
      rcases segB_cons_iff.mp hs with ⟨haf, nd, hha, hdta, _, htail⟩
      subst haf
      cases fuel with
      | zero => simp at hfuel
      | succ fuel =>
        have hane : a ≠ stop := hne a (List.mem_cons_self a bs)
        have := ih (fun b hb => hne b (List.mem_cons_of_mem a hb)) htail fuel
          (by simpa using hfuel)
        simp [read_loop, hane, hha, this, hdta]

theorem hupd_hupd_same {h : Heap} {a : Nat} {v1 v2 : Node} :
    hupd (hupd h a v1) a v2 = hupd h a v2 := by
  funext x
  by_cases hx : x = a <;> simp [hupd, hx]

theorem sentB_iff {s : St} {a0 : Nat} {as : List Nat} {xs : List Int} :
    sentB s a0 as xs = true ↔
      ∃ nd, s.heap a0 = some nd ∧ nd.prev = lastA a0 as ∧
        segB s.heap a0 nd.next as xs a0 = true := by
  cases hh : s.heap a0 with
  | none => simp [sentB, hh]
  | some nd => simp [sentB, hh, and_assoc]

/-- The node-append step shared by `list::push_back` and the loops of
`__M_clone`, `__M_range_init` and `insert_before`:
`__M_create_node(d)` then `t->push_back(node)`. -/
def append_node (s : St) (t : Nat) (d : Int) : Option St := do
  let p := __M_create_node s d
  let h ← Node_push_back p.1.heap t p.2
  pure ⟨h, p.1.ctr⟩

/-- Appending a fresh node to a well-formed ring anchored at `t` extends the
representation by one cell at the back, bumps the counter, and touches no
cell outside the ring and the fresh address. -/
theorem append_node_preserve {s : St} {t : Nat} {cs : List Nat} {ys : List Int}
    {d : Int} (hrep : listRep s t cs ys) :
    ∃ s', append_node s t d = some s' ∧
      listRep s' t (cs ++ [s.ctr]) (ys ++ [d]) ∧
      s'.ctr = s.ctr + 1 ∧
      ∀ x, x ∉ t :: cs → x ≠ s.ctr → s'.heap x = s.heap x := by
  obtain ⟨hnodup, hbound, hsent⟩ := hrep
  rcases sentB_iff.mp hsent with ⟨nd0, hh0, hprev0, hseg⟩
  have htn : t ≠ s.ctr := Nat.ne_of_lt (hbound t (List.mem_cons_self _ _))
  have hcsn : ∀ a ∈ cs, a ≠ s.ctr := fun a ha =>
    Nat.ne_of_lt (hbound a (List.mem_cons_of_mem _ ha))
  have htnotin : t ∉ cs := (List.nodup_cons.mp hnodup).1
  have hnnotin : s.ctr ∉ t :: cs := by
    intro hmem
    exact absurd rfl (Nat.ne_of_lt (hbound _ hmem)).symm
  by_cases hcs : cs = []
  · subst hcs
    have hys : ys = [] := by
      have := segB_length hseg
      exact (List.length_eq_zero.mp this.symm)
    subst hys
    have hnx0 : nd0.next = t := segB_nil_iff.mp hseg
    have hpr0 : nd0.prev = t := by simpa [lastA] using hprev0
    have hrun : append_node s t d =
        some ⟨hupd (hupd s.heap s.ctr ⟨d, t, t⟩) t ⟨nd0.data, s.ctr, s.ctr⟩,
          s.ctr + 1⟩ := by
      simp [append_node, __M_create_node, Node_push_back, hupd_ne htn,
        hupd_same, hupd_hupd_same, hh0, hpr0, hnx0]
    refine ⟨_, hrun, ⟨?_, ?_, ?_⟩, rfl, ?_⟩
    · simp [List.nodup_cons, htn]
    · intro a ha
      simp only [List.nil_append] at ha
      rcases List.mem_cons.mp ha with h1 | h2
      · rw [h1]; exact Nat.lt_succ_of_lt (hbound t (by simp))
      · simp at h2; rw [h2]; exact Nat.lt_succ_self _
    · refine sentB_iff.mpr ⟨⟨nd0.data, s.ctr, s.ctr⟩, ?_, ?_, ?_⟩
      · exact hupd_same
      · simp [lastA]
      · refine segB_cons_iff.mpr ⟨rfl, ⟨d, t, t⟩, ?_, rfl, rfl, segB_nil_iff.mpr rfl⟩
        simp [hupd, htn.symm]
    · intro x hx hxn
      have hxt : x ≠ t := fun he => hx (he ▸ List.mem_cons_self t [])
      simp [hupd, hxt, hxn]
  · have hcsnodup : cs.Nodup := (List.nodup_cons.mp hnodup).2
    rcases segB_retarget hcs hcsnodup hseg with ⟨ndL, hhL, hnxL, hall⟩
    have hLmem : lastA t cs ∈ cs := lastA_mem hcs
    have hLt : lastA t cs ≠ t := fun he => htnotin (he ▸ hLmem)
    have hLn : lastA t cs ≠ s.ctr := hcsn _ hLmem
    have hpr0' : nd0.prev = lastA t cs := hprev0
    have hrun : append_node s t d =
        some ⟨hupd (hupd (hupd s.heap s.ctr ⟨d, lastA t cs, t⟩)
            (lastA t cs) ⟨ndL.data, ndL.prev, s.ctr⟩)
            t ⟨nd0.data, s.ctr, nd0.next⟩, s.ctr + 1⟩ := by
      simp [append_node, __M_create_node, Node_push_back, hupd_ne htn,
        hupd_ne hLn, hupd_ne hLt.symm, hupd_same, hupd_hupd_same, hh0, hhL,
        hpr0']
    refine ⟨_, hrun, ⟨?_, ?_, ?_⟩, rfl, ?_⟩
    · have : (t :: cs ++ [s.ctr]).Nodup := by
        rw [List.nodup_append]
        refine ⟨hnodup, List.nodup_singleton _, ?_⟩
        intro a ha hb
        simp at hb
        subst hb
        exact hnnotin ha
      simpa using this
    · intro a ha
      rcases List.mem_cons.mp ha with h1 | h2
      · rw [h1]; exact Nat.lt_succ_of_lt (hbound t (by simp))
      · rcases List.mem_append.mp h2 with h3 | h4
        · exact Nat.lt_succ_of_lt (hbound a (List.mem_cons_of_mem _ h3))
        · simp at h4; rw [h4]; exact Nat.lt_succ_self _
    · refine sentB_iff.mpr ⟨⟨nd0.data, s.ctr, nd0.next⟩, hupd_same, ?_, ?_⟩
      · simp [lastA, List.getLast?_concat]
      · have hmid : segB (hupd s.heap (lastA t cs) ⟨ndL.data, ndL.prev, s.ctr⟩)
            t nd0.next cs ys s.ctr = true := by
          exact hall s.ctr
        have hframe : segB (hupd (hupd (hupd s.heap s.ctr ⟨d, lastA t cs, t⟩)
            (lastA t cs) ⟨ndL.data, ndL.prev, s.ctr⟩)
            t ⟨nd0.data, s.ctr, nd0.next⟩) t nd0.next cs ys s.ctr = true := by
          refine segB_frame (fun a ha => ?_) hmid
          have hat : a ≠ t := fun he => htnotin (he ▸ ha)
          have han : a ≠ s.ctr := hcsn a ha
          rw [hupd_ne hat]
          by_cases haL : a = lastA t cs
          · subst haL; rw [hupd_same, hupd_same]
          · rw [hupd_ne haL, hupd_ne han, hupd_ne haL]
        refine segB_snoc hframe ?_
        simp [hupd, htn.symm, hLn.symm]
    · intro x hx hxn
      have hxt : x ≠ t := fun he => hx (he ▸ List.mem_cons_self t cs)
      have hxL : x ≠ lastA t cs := fun he => hx (he ▸ List.mem_cons_of_mem t hLmem)
      simp [hupd, hxt, hxL, hxn]

theorem lastA_irrel {p q : Nat} {as : List Nat} (h : as ≠ []) :
    lastA p as = lastA q as := by
  simp [lastA, List.getLast?_eq_getLast_of_ne_nil h]

/-- `list::push_back` is the append step applied at the sentinel. -/
theorem push_back_eq_append {s : St} {a0 : Nat} {d : Int} :
    push_back s (some a0) d = append_node s a0 d := rfl

/-- `push_back` extends the ring by one node at the back. -/
theorem push_back_preserve {s : St} {a0 : Nat} {as : List Nat} {xs : List Int}
    {d : Int} (hrep : listRep s a0 as xs) :
    ∃ s', push_back s (some a0) d = some s' ∧
      listRep s' a0 (as ++ [s.ctr]) (xs ++ [d]) ∧
      s'.ctr = s.ctr + 1 ∧
      ∀ x, x ∉ a0 :: as → x ≠ s.ctr → s'.heap x = s.heap x := by
  rw [push_back_eq_append]
  exact append_node_preserve hrep

/-- `push_front` extends the ring by one node at the front. -/
theorem push_front_preserve {s : St} {a0 : Nat} {as : List Nat} {xs : List Int}
    {d : Int} (hrep : listRep s a0 as xs) :
    ∃ s', push_front s (some a0) d = some s' ∧
      listRep s' a0 (s.ctr :: as) (d :: xs) ∧
      s'.ctr = s.ctr + 1 ∧
      ∀ x, x ∉ a0 :: as → x ≠ s.ctr → s'.heap x = s.heap x := by
  obtain ⟨hnodup, hbound, hsent⟩ := hrep
  rcases sentB_iff.mp hsent with ⟨nd0, hh0, hprev0, hseg⟩
  have htn : a0 ≠ s.ctr := Nat.ne_of_lt (hbound a0 (List.mem_cons_self _ _))
  have hcsn : ∀ a ∈ as, a ≠ s.ctr := fun a ha =>
    Nat.ne_of_lt (hbound a (List.mem_cons_of_mem _ ha))
  have htnotin : a0 ∉ as := (List.nodup_cons.mp hnodup).1
  cases has : as with
  | nil =>
    subst has
    have hxs : xs = [] := by
      have := segB_length hseg
      exact (List.length_eq_zero.mp this.symm)
    subst hxs
    have hnx0 : nd0.next = a0 := segB_nil_iff.mp hseg
    have hpr0 : nd0.prev = a0 := by simpa [lastA] using hprev0
    have hrun : push_front s (some a0) d =
        some ⟨hupd (hupd s.heap s.ctr ⟨d, a0, a0⟩) a0 ⟨nd0.data, s.ctr, s.ctr⟩,
          s.ctr + 1⟩ := by
      simp [push_front, __M_create_node, Node_push_front, hupd_ne htn,
        hupd_same, hupd_hupd_same, hh0, hpr0, hnx0]
    refine ⟨_, hrun, ⟨?_, ?_, ?_⟩, rfl, ?_⟩
    · simp [List.nodup_cons, htn]
    · intro a ha
      simp at ha
      rcases ha with h1 | h2
      · rw [h1]; exact Nat.lt_succ_of_lt (hbound a0 (by simp))
      · rw [h2]; exact Nat.lt_succ_self _
    · refine sentB_iff.mpr ⟨⟨nd0.data, s.ctr, s.ctr⟩, ?_, ?_, ?_⟩
      · exact hupd_same
      · simp [lastA]
      · refine segB_cons_iff.mpr ⟨rfl, ⟨d, a0, a0⟩, ?_, rfl, rfl, segB_nil_iff.mpr rfl⟩
        simp [hupd, htn.symm]
    · intro x hx hxn
      have hxt : x ≠ a0 := fun he => hx (he ▸ List.mem_cons_self a0 [])
      simp [hupd, hxt, hxn]
  | cons F rest =>
    have hasne : as ≠ [] := by rw [has]; simp
    have hF : F = nd0.next := by
      rw [has] at hseg
      cases xs with
      | nil => simp [segB_xs_nil] at hseg
      | cons x xs' => exact (segB_cons_iff.mp hseg).1
    subst hF
    have hFas : nd0.next ∈ as := by rw [has]; exact List.mem_cons_self _ _
    have hFa0 : nd0.next ≠ a0 := fun he => htnotin (he ▸ hFas)
    have hFn : nd0.next ≠ s.ctr := hcsn _ hFas
    cases xs with
    | nil => rw [has] at hseg; simp [segB_xs_nil] at hseg
    | cons x xs' =>
      rw [has] at hseg
      have hFnotin : nd0.next ∉ rest := by
        have := (List.nodup_cons.mp hnodup).2
        rw [has] at this
        exact (List.nodup_cons.mp this).1
      rcases segB_reprev hFnotin hseg s.ctr with ⟨ndF, hhF, hseg2⟩
      have hrun : push_front s (some a0) d =
          some ⟨hupd (hupd (hupd s.heap s.ctr ⟨d, a0, nd0.next⟩)
              nd0.next ⟨ndF.data, s.ctr, ndF.next⟩)
              a0 ⟨nd0.data, nd0.prev, s.ctr⟩, s.ctr + 1⟩ := by
        simp [push_front, __M_create_node, Node_push_front, hupd_ne htn,
          hupd_ne hFn, hupd_ne hFa0.symm, hupd_same, hupd_hupd_same, hh0, hhF]
      refine ⟨_, hrun, ⟨?_, ?_, ?_⟩, rfl, ?_⟩
      · refine List.nodup_cons.mpr ⟨?_, List.nodup_cons.mpr ⟨?_, ?_⟩⟩
        · intro hmem
          rcases List.mem_cons.mp hmem with h1 | h2
          · exact htn h1
          · apply htnotin; rw [has]; exact h2
        · intro hmem
          have hm : s.ctr ∈ as := by rw [has]; exact hmem
          exact (hcsn _ hm) rfl
        · have := (List.nodup_cons.mp hnodup).2; rw [has] at this; exact this
      · intro a ha
        rcases List.mem_cons.mp ha with h1 | h2
        · rw [h1]; exact Nat.lt_succ_of_lt (hbound a0 (by simp))
        · rcases List.mem_cons.mp h2 with h3 | h4
          · rw [h3]; exact Nat.lt_succ_self _
          · refine Nat.lt_succ_of_lt (hbound a (List.mem_cons_of_mem _ ?_))
            rw [has]; exact h4
      · refine sentB_iff.mpr ⟨⟨nd0.data, nd0.prev, s.ctr⟩, hupd_same, ?_, ?_⟩
        · rw [lastA_cons_cons, hprev0, has]
          exact lastA_irrel (by simp)
        · refine segB_cons_iff.mpr ⟨rfl, ⟨d, a0, nd0.next⟩, ?_, rfl, rfl, ?_⟩
          · simp [hupd, htn.symm, hFa0, hFn.symm]
          · have hframe : segB (hupd (hupd (hupd s.heap s.ctr ⟨d, a0, nd0.next⟩)
                nd0.next ⟨ndF.data, s.ctr, ndF.next⟩)
                a0 ⟨nd0.data, nd0.prev, s.ctr⟩) s.ctr nd0.next
                (nd0.next :: rest) (x :: xs') a0 = true := by
              refine segB_frame (fun a ha => ?_) hseg2
              have hat : a ≠ a0 := by
                intro he
                apply htnotin
                rw [has]
                exact he ▸ ha
              have han : a ≠ s.ctr := by
                refine hcsn a ?_
                rw [has]; exact ha
              rw [hupd_ne hat]
              by_cases haF : a = nd0.next
              · rw [haF, hupd_same, hupd_same]
              · rw [hupd_ne haF, hupd_ne han, hupd_ne haF]
            exact hframe
      · intro x hx hxn
        have hxt : x ≠ a0 := fun he => hx (he ▸ List.mem_cons_self _ _)
        have hxF : x ≠ nd0.next :=
          fun he => hx (he ▸ List.mem_cons_of_mem a0 (List.mem_cons_self _ _))
        simp [hupd, hxt, hxF, hxn]

theorem segB_first {h : Heap} {p f stop : Nat} {as : List Nat} {xs : List Int}
    (hs : segB h p f as xs stop = true) : f = headA as stop := by
  cases as with
  | nil =>
    cases xs with
    | nil => simpa [headA] using (segB_nil_iff.mp hs)
    | cons _ _ => simp [segB_as_nil] at hs
  | cons a as' =>
    cases xs with
    | nil => simp [segB_xs_nil] at hs
    | cons x xs' => simpa [headA] using ((segB_cons_iff.mp hs).1).symm

theorem lastA_append_right {p : Nat} {u v : List Nat} (hv : v ≠ []) :
    lastA p (u ++ v) = lastA p v := by
  simp [lastA, List.getLast?_append_of_ne_nil u hv]

/-- `list::erase` at the element `t` of a well-formed ring (`l1`/`y1` before
it, `l2`/`y2` after it): the node is unlinked, destroyed and deallocated, the
remaining cells form the ring without it, every cell outside the original
ring is untouched, and the returned iterator holds the address of the node
that followed `t` (the sentinel when `t` was the last element). -/
theorem erase_preserve {s : St} {a0 t : Nat} {l1 l2 : List Nat}
    {y1 y2 : List Int} {xv : Int}
    (hrep : listRep s a0 (l1 ++ t :: l2) (y1 ++ xv :: y2))
    (hlen : l1.length = y1.length) :
    ∃ s', erase s t = some (s', headA l2 a0) ∧
      listRep s' a0 (l1 ++ l2) (y1 ++ y2) ∧
      s'.ctr = s.ctr ∧
      s'.heap t = none ∧
      ∀ x, x ∉ a0 :: (l1 ++ t :: l2) → s'.heap x = s.heap x := by
  obtain ⟨hnodup, hbound, hsent⟩ := hrep
  rcases sentB_iff.mp hsent with ⟨nd0, hh0, hprev0, hseg⟩
  have hmid : (t :: (l1 ++ l2)).Nodup :=
    List.nodup_middle.mp (List.nodup_cons.mp hnodup).2
  have htl12 : t ∉ l1 ++ l2 := (List.nodup_cons.mp hmid).1
  have htl1 : t ∉ l1 := fun hm => htl12 (List.mem_append_left _ hm)
  have htl2 : t ∉ l2 := fun hm => htl12 (List.mem_append_right _ hm)
  have ha0nin : a0 ∉ l1 ++ t :: l2 := (List.nodup_cons.mp hnodup).1
  have ha0l1 : a0 ∉ l1 := fun hm => ha0nin (List.mem_append_left _ hm)
  have ha0t : a0 ≠ t :=
    fun he => ha0nin (List.mem_append_right _ (he ▸ List.mem_cons_self _ _))
  have ha0l2 : a0 ∉ l2 :=
    fun hm => ha0nin (List.mem_append_right _ (List.mem_cons_of_mem _ hm))
  have hsub : List.Sublist (a0 :: l1 ++ l2) (a0 :: l1 ++ t :: l2) :=
    List.Sublist.cons₂ a0 (List.Sublist.append_left (List.sublist_cons_self t l2) l1)
  have hnodup' : (a0 :: l1 ++ l2).Nodup := List.Nodup.sublist hsub hnodup
  have hbound' : ∀ a ∈ a0 :: l1 ++ l2, a < s.ctr :=
    fun a ha => hbound a (hsub.subset ha)
  have hl12nodup : (l1 ++ l2).Nodup := (List.nodup_cons.mp hmid).2
  have hl1nodup : l1.Nodup := hl12nodup.of_append_left
  have hl2nodup : l2.Nodup := hl12nodup.of_append_right
  have hsplit := segB_split hlen hseg
  have hseg1 : segB s.heap a0 nd0.next l1 y1 t = true := by
    have h1 := hsplit.1
    simpa [headA] using h1
  have hseg2 : segB s.heap (lastA a0 l1) t (t :: l2) (xv :: y2) a0 = true := by
    have h2 := hsplit.2
    simpa [headA] using h2
  rcases segB_cons_iff.mp hseg2 with ⟨-, ndT, hhT, hdT, hpT, hsegl2⟩
  have hN : ndT.next = headA l2 a0 := segB_first hsegl2
  cases l1 with
  | nil =>
    have hy1 : y1 = [] := List.length_eq_zero.mp (by simpa using hlen.symm)
    subst hy1
    have hnx0 : nd0.next = t := by
      simpa using segB_nil_iff.mp hseg1
    have hpT' : ndT.prev = a0 := by simpa [lastA] using hpT
    cases l2 with
    | nil =>
      have hy2 : y2 = [] := by
        have := segB_length hsegl2
        exact List.length_eq_zero.mp (by simpa using this.symm)
      subst hy2
      have hnxT : ndT.next = a0 := segB_nil_iff.mp hsegl2
      have hrun : erase s t =
          some (⟨hfree (hupd s.heap a0 ⟨nd0.data, a0, a0⟩) t, s.ctr⟩, a0) := by
        simp [erase, hhT, hpT', hnxT, hh0, hupd_same, hupd_hupd_same,
          hupd_ne ha0t.symm]
      refine ⟨⟨hfree (hupd s.heap a0 ⟨nd0.data, a0, a0⟩) t, s.ctr⟩,
        by simpa [headA] using hrun, ⟨?_, ?_, ?_⟩, rfl, hfree_same, ?_⟩
      · simp
      · intro a ha
        have ha' : a = a0 := by simpa using ha
        rw [ha']
        exact hbound a0 (by simp)
      · refine sentB_iff.mpr
          ⟨⟨nd0.data, a0, a0⟩, ?_, by simp [lastA], segB_nil_iff.mpr rfl⟩
        simp [hfree, hupd, ha0t]
      · intro x hx
        simp at hx
        simp [hfree, hupd, hx.1, hx.2]
    | cons F l2' =>
      have hy2 : ∃ yF y2', y2 = yF :: y2' := by
        have := segB_length hsegl2
        cases y2 with
        | nil => simp at this
        | cons yF y2' => exact ⟨yF, y2', rfl⟩
      rcases hy2 with ⟨yF, y2', rfl⟩
      have hFl2 : F ∈ F :: l2' := List.mem_cons_self _ _
      have hFa0 : F ≠ a0 := fun he => ha0l2 (he ▸ hFl2)
      have hFt : F ≠ t := fun he => htl2 (he ▸ hFl2)
      have hFnotin : F ∉ l2' := (List.nodup_cons.mp hl2nodup).1
      have hN' : ndT.next = F := by simpa [headA] using hN
      rw [hN'] at hsegl2
      rcases segB_reprev hFnotin hsegl2 a0 with ⟨ndF, hhF, hseg2'⟩
      have hrun : erase s t =
          some (⟨hfree (hupd (hupd s.heap a0 ⟨nd0.data, nd0.prev, F⟩)
            F ⟨ndF.data, a0, ndF.next⟩) t, s.ctr⟩, F) := by
        simp [erase, hhT, hpT', hN', hh0, hhF, hupd_same, hupd_hupd_same,
          hupd_ne ha0t.symm, hupd_ne hFa0, hupd_ne hFt.symm]
      refine ⟨⟨hfree (hupd (hupd s.heap a0 ⟨nd0.data, nd0.prev, F⟩)
          F ⟨ndF.data, a0, ndF.next⟩) t, s.ctr⟩,
        by simpa [headA] using hrun, ⟨?_, ?_, ?_⟩, rfl, hfree_same, ?_⟩
      · simpa using hnodup'
      · intro a ha
        exact hbound' a (by simpa using ha)
      · refine sentB_iff.mpr ⟨⟨nd0.data, nd0.prev, F⟩, ?_, ?_, ?_⟩
        · simp [hfree, hupd, ha0t, hFa0.symm]
        · have h1 : nd0.prev = lastA a0 (t :: F :: l2') := by simpa using hprev0
          rw [h1, lastA_cons_cons]
          simp only [List.nil_append]
          exact lastA_irrel (by simp)
        · have hfin : segB (hfree (hupd (hupd s.heap a0 ⟨nd0.data, nd0.prev, F⟩)
              F ⟨ndF.data, a0, ndF.next⟩) t) a0 F (F :: l2') (yF :: y2') a0 = true := by
            refine segB_frame (fun a ha => ?_) hseg2'
            have hat : a ≠ t := fun he => htl2 (he ▸ ha)
            have haa0 : a ≠ a0 := fun he => ha0l2 (he ▸ ha)
            rw [hfree_ne hat]
            by_cases haF : a = F
            · rw [haF, hupd_same, hupd_same]
            · rw [hupd_ne haF, hupd_ne haa0, hupd_ne haF]
          exact hfin
      · intro x hx
        simp at hx
        simp [hfree, hupd, hx.1, hx.2.1, hx.2.2]
  | cons c l1' =>
    have hy1 : ∃ w y1', y1 = w :: y1' := by
      cases y1 with
      | nil => simp at hlen
      | cons w y1' => exact ⟨w, y1', rfl⟩
    rcases hy1 with ⟨w, y1', rfl⟩
    have hl1ne : (c :: l1') ≠ [] := by simp
    rcases segB_retarget hl1ne hl1nodup hseg1 with ⟨ndP, hhP, hnxP, hall1⟩
    have hPl1 : lastA a0 (c :: l1') ∈ c :: l1' := lastA_mem hl1ne
    have hPt : lastA a0 (c :: l1') ≠ t := fun he => htl1 (he ▸ hPl1)
    have hPa0 : lastA a0 (c :: l1') ≠ a0 := fun he => ha0l1 (he ▸ hPl1)
    have hpT' : ndT.prev = lastA a0 (c :: l1') := hpT
    cases l2 with
    | nil =>
      have hy2 : y2 = [] := by
        have := segB_length hsegl2
        exact List.length_eq_zero.mp (by simpa using this.symm)
      subst hy2
      have hnxT : ndT.next = a0 := segB_nil_iff.mp hsegl2
      have hrun : erase s t =
          some (⟨hfree (hupd (hupd s.heap (lastA a0 (c :: l1'))
              ⟨ndP.data, ndP.prev, a0⟩)
              a0 ⟨nd0.data, lastA a0 (c :: l1'), nd0.next⟩) t, s.ctr⟩, a0) := by
        simp [erase, hhT, hpT', hnxT, hh0, hhP, hupd_same, hupd_hupd_same,
          hupd_ne ha0t.symm, hupd_ne hPa0.symm, hupd_ne hPt.symm]
      refine ⟨⟨hfree (hupd (hupd s.heap (lastA a0 (c :: l1'))
          ⟨ndP.data, ndP.prev, a0⟩)
          a0 ⟨nd0.data, lastA a0 (c :: l1'), nd0.next⟩) t, s.ctr⟩,
        by simpa [headA] using hrun, ⟨?_, ?_, ?_⟩, rfl, hfree_same, ?_⟩
      · simpa using hnodup'
      · intro a ha
        exact hbound' a (by simpa using ha)
      · refine sentB_iff.mpr
          ⟨⟨nd0.data, lastA a0 (c :: l1'), nd0.next⟩, ?_, ?_, ?_⟩
        · simp [hfree, hupd, ha0t, hupd_same]
        · simp [lastA]
        · have hfin : segB (hfree (hupd (hupd s.heap (lastA a0 (c :: l1'))
              ⟨ndP.data, ndP.prev, a0⟩)
              a0 ⟨nd0.data, lastA a0 (c :: l1'), nd0.next⟩) t)
              a0 nd0.next (c :: l1') (w :: y1') a0 = true := by
            refine segB_frame (fun a ha => ?_) (hall1 a0)
            have hat : a ≠ t := fun he => htl1 (he ▸ ha)
            have haa0 : a ≠ a0 := fun he => ha0l1 (he ▸ ha)
            rw [hfree_ne hat, hupd_ne haa0]
          simpa using hfin
      · intro x hx
        have hxa0 : x ≠ a0 := fun he => hx (he ▸ List.mem_cons_self _ _)
        have hxt : x ≠ t := fun he => hx (he ▸ List.mem_cons_of_mem a0
          (List.mem_append_right _ (List.mem_cons_self _ _)))
        have hxP : x ≠ lastA a0 (c :: l1') := fun he => hx (he ▸ List.mem_cons_of_mem a0
          (List.mem_append_left _ hPl1))
        simp [hfree, hupd, hxa0, hxt, hxP]
    | cons F l2' =>
      have hy2 : ∃ yF y2', y2 = yF :: y2' := by
        have := segB_length hsegl2
        cases y2 with
        | nil => simp at this
        | cons yF y2' => exact ⟨yF, y2', rfl⟩
      rcases hy2 with ⟨yF, y2', rfl⟩
      have hFl2 : F ∈ F :: l2' := List.mem_cons_self _ _
      have hFa0 : F ≠ a0 := fun he => ha0l2 (he ▸ hFl2)
      have hFt : F ≠ t := fun he => htl2 (he ▸ hFl2)
      have hFnotin : F ∉ l2' := (List.nodup_cons.mp hl2nodup).1
      have hN' : ndT.next = F := by simpa [headA] using hN
      rw [hN'] at hsegl2
      have hdisj : List.Disjoint (c :: l1') (F :: l2') :=
        List.disjoint_of_nodup_append hl12nodup
      have hPF : lastA a0 (c :: l1') ≠ F :=
        fun he => hdisj hPl1 (he ▸ hFl2)
      rcases segB_reprev hFnotin hsegl2 (lastA a0 (c :: l1')) with ⟨ndF, hhF, hseg2'⟩
      have hrun : erase s t =
          some (⟨hfree (hupd (hupd s.heap (lastA a0 (c :: l1'))
              ⟨ndP.data, ndP.prev, F⟩)
              F ⟨ndF.data, lastA a0 (c :: l1'), ndF.next⟩) t, s.ctr⟩, F) := by
        simp [erase, hhT, hpT', hN', hh0, hhP, hhF, hupd_same, hupd_hupd_same,
          hupd_ne hPa0.symm, hupd_ne hPt.symm, hupd_ne hPF.symm,
          hupd_ne hFt.symm]
      refine ⟨⟨hfree (hupd (hupd s.heap (lastA a0 (c :: l1'))
          ⟨ndP.data, ndP.prev, F⟩)
          F ⟨ndF.data, lastA a0 (c :: l1'), ndF.next⟩) t, s.ctr⟩,
        by simpa [headA] using hrun, ⟨?_, ?_, ?_⟩, rfl, hfree_same, ?_⟩
      · exact hnodup'
      · exact hbound'
      · refine sentB_iff.mpr ⟨nd0, ?_, ?_, ?_⟩
        · simp [hfree, hupd, ha0t, hPa0.symm, hFa0.symm, hh0]
        · have h1 : nd0.prev = lastA a0 (t :: F :: l2') := by
            rw [hprev0]
            exact lastA_append_right (by simp)
          rw [h1, lastA_cons_cons, lastA_append_right (v := F :: l2') (by simp)]
          exact lastA_irrel (by simp)
        · have hseg1' : segB (hfree (hupd (hupd s.heap (lastA a0 (c :: l1'))
              ⟨ndP.data, ndP.prev, F⟩)
              F ⟨ndF.data, lastA a0 (c :: l1'), ndF.next⟩) t)
              a0 nd0.next (c :: l1') (w :: y1') F = true := by
            refine segB_frame (fun a ha => ?_) (hall1 F)
            have hat : a ≠ t := fun he => htl1 (he ▸ ha)
            have haF : a ≠ F := fun he => hdisj (he ▸ ha) hFl2
            rw [hfree_ne hat, hupd_ne haF]
          have hseg2'' : segB (hfree (hupd (hupd s.heap (lastA a0 (c :: l1'))
              ⟨ndP.data, ndP.prev, F⟩)
              F ⟨ndF.data, lastA a0 (c :: l1'), ndF.next⟩) t)
              (lastA a0 (c :: l1')) F (F :: l2') (yF :: y2') a0 = true := by
            refine segB_frame (fun a ha => ?_) hseg2'
            have hat : a ≠ t := fun he => htl2 (he ▸ ha)
            have haP : a ≠ lastA a0 (c :: l1') := fun he => hdisj (he ▸ hPl1) ha
            rw [hfree_ne hat]
            by_cases haF : a = F
            · rw [haF, hupd_same, hupd_same]
            · rw [hupd_ne haF, hupd_ne haP, hupd_ne haF]
          exact segB_join hseg1' hseg2''
      · intro x hx
        have hxa0 : x ≠ a0 := fun he => hx (he ▸ List.mem_cons_self _ _)
        have hxt : x ≠ t := fun he => hx (he ▸ List.mem_cons_of_mem a0
          (List.mem_append_right _ (List.mem_cons_self _ _)))
        have hxP : x ≠ lastA a0 (c :: l1') := fun he => hx (he ▸ List.mem_cons_of_mem a0
          (List.mem_append_left _ hPl1))
        have hxF : x ≠ F := by
          intro he
          apply hx
          rw [he]
          exact List.mem_cons_of_mem a0
            (List.mem_append_right _ (List.mem_cons_of_mem t hFl2))
        simp [hfree, hupd, hxa0, hxt, hxP, hxF]

theorem listRep_length {s : St} {a0 : Nat} {as : List Nat} {xs : List Int}
    (hrep : listRep s a0 as xs) : as.length = xs.length := by
  rcases sentB_iff.mp hrep.2.2 with ⟨nd0, _, _, hseg⟩
  exact segB_length hseg

theorem listRep_mem_ne_sent {s : St} {a0 : Nat} {as : List Nat} {xs : List Int}
    (hrep : listRep s a0 as xs) : ∀ a ∈ as, a ≠ a0 := by
  intro a ha he
  exact (List.nodup_cons.mp hrep.1).1 (he ▸ ha)

/-- A well-formed list reads out as its value sequence. -/
theorem listRep_readSeq {s : St} {a0 : Nat} {as : List Nat} {xs : List Int}
    (hrep : listRep s a0 as xs) :
    ∀ fuel, as.length < fuel → readSeq fuel s (some a0) = some xs := by
  intro fuel hfuel
  rcases sentB_iff.mp hrep.2.2 with ⟨nd0, hh0, _, hseg⟩
  have := segB_read (listRep_mem_ne_sent hrep) hseg fuel hfuel
  simp [readSeq, hh0, this]

/-- A well-formed list's `size()` evaluates to its length. -/
theorem listRep_size {s : St} {a0 : Nat} {as : List Nat} {xs : List Int}
    (hrep : listRep s a0 as xs) :
    ∀ fuel, as.length < fuel → size fuel s (some a0) = some as.length := by
  intro fuel hfuel
  rcases sentB_iff.mp hrep.2.2 with ⟨nd0, hh0, _, hseg⟩
  have := segB_dist (listRep_mem_ne_sent hrep) hseg fuel hfuel
  simp [size, hh0, this]

/-- The representation only depends on the heap over the ring's footprint
and on the counter bound. -/
theorem listRep_frame {s s' : St} {a0 : Nat} {as : List Nat} {xs : List Int}
    (hrep : listRep s a0 as xs)
    (hagree : ∀ x ∈ a0 :: as, s'.heap x = s.heap x)
    (hc : s.ctr ≤ s'.ctr) : listRep s' a0 as xs := by
  obtain ⟨hnodup, hbound, hsent⟩ := hrep
  rcases sentB_iff.mp hsent with ⟨nd0, hh0, hprev0, hseg⟩
  refine ⟨hnodup, fun a ha => Nat.lt_of_lt_of_le (hbound a ha) hc, ?_⟩
  refine sentB_iff.mpr ⟨nd0, ?_, hprev0, ?_⟩
  · rw [hagree a0 (List.mem_cons_self _ _)]; exact hh0
  · exact segB_frame (fun a ha => hagree a (List.mem_cons_of_mem _ ha)) hseg

/-- `C10`: on an empty list (sentinel self-linked at `a`), `pop_front()` and
`pop_back()` pass the sentinel itself to `erase`, which unlinks it, destroys
it and deallocates it: afterwards the sentinel's address is unallocated
while the list's (unchanged) head still names it — a dangling head, not a
safe no-op. -/
theorem pop_on_empty_frees_sentinel {s : St} {a : Nat} {dv : Int}
    (hs : s.heap a = some ⟨dv, a, a⟩) :
    pop_front s (some a) = (erase s a).map Prod.fst ∧
    pop_back s (some a) = (erase s a).map Prod.fst ∧
    ∃ s', pop_front s (some a) = some s' ∧ pop_back s (some a) = some s' ∧
      s'.heap a = none := by
  have herase : erase s a =
      some (⟨hfree (hupd s.heap a ⟨dv, a, a⟩) a, s.ctr⟩, a) := by
    simp [erase, hs, hupd_same, hupd_hupd_same]
  refine ⟨?_, ?_, ⟨hfree (hupd s.heap a ⟨dv, a, a⟩) a, s.ctr⟩, ?_, ?_, hfree_same⟩
  · simp [pop_front, hs, herase]
  · simp [pop_back, hs, herase]
  · simp [pop_front, hs, herase]
  · simp [pop_back, hs, herase]

/-- `C5`: erasing the element at address `t` of a well-formed list (elements
`l1`/`y1` before it, `l2`/`y2` after it) unlinks exactly that node,
deallocates it, leaves the remaining ring intact and untouched elsewhere,
and returns an iterator on the node that followed `t` (dereferencing to the
following value when one exists, the sentinel otherwise). -/
theorem erase_unlinks_returns_next {s : St} {a0 t : Nat} {l1 l2 : List Nat}
    {y1 y2 : List Int} {xv : Int}
    (hrep : listRep s a0 (l1 ++ t :: l2) (y1 ++ xv :: y2))
    (hlen : l1.length = y1.length) :
    ∃ s', erase s t = some (s', headA l2 a0) ∧
      listRep s' a0 (l1 ++ l2) (y1 ++ y2) ∧
      s'.heap t = none ∧
      (∀ F l2t yF y2t, l2 = F :: l2t → y2 = yF :: y2t →
        iter_deref s'.heap F = some yF) ∧
      ∀ x, x ∉ a0 :: (l1 ++ t :: l2) → s'.heap x = s.heap x := by
  rcases erase_preserve hrep hlen with ⟨s', herase, hrep', hctr, hfreed, hframe⟩
  refine ⟨s', herase, hrep', hfreed, ?_, hframe⟩
  rintro F l2t yF y2t rfl rfl
  rcases sentB_iff.mp hrep'.2.2 with ⟨nd0, hh0, _, hseg⟩
  have hsplit := segB_split (h := s'.heap) hlen hseg
  have hseg2 := hsplit.2
  rcases segB_cons_iff.mp (by simpa [headA] using hseg2) with ⟨-, ndF, hhF, hdF, -, -⟩
  simp [iter_deref, hhF, hdF]

/-- Witness for the pop-on-empty theorem at the default-constructed list. -/
theorem pop_on_empty_frees_sentinel_w :
    sc0.1.heap 0 = some ⟨0, 0, 0⟩ ∧
    (pop_front sc0.1 (some 0) = (erase sc0.1 0).map Prod.fst ∧
     pop_back sc0.1 (some 0) = (erase sc0.1 0).map Prod.fst ∧
     ∃ s', pop_front sc0.1 (some 0) = some s' ∧ pop_back sc0.1 (some 0) = some s' ∧
       s'.heap 0 = none) :=
  ⟨by decide, @pop_on_empty_frees_sentinel sc0.1 0 0 (by decide)⟩

/-- Witness for the erase theorem: `erase(++begin())` on the scenario list
`[0, 1, 2]` (element addresses `3, 1, 2`, erased node at address `1`). -/
theorem erase_unlinks_returns_next_w :
    (begin S3 (some 0)).bind (iter_next S3.heap) = some 1 ∧
    readSeq 5 S3 (some 0) = some [0, 1, 2] ∧
    listRep S3 0 ([3] ++ 1 :: [2]) ([0] ++ 1 :: [2]) ∧
    (∃ s', erase S3 1 = some (s', headA [2] 0) ∧
      listRep s' 0 ([3] ++ [2]) ([0] ++ [2]) ∧
      s'.heap 1 = none ∧
      (∀ F l2t yF y2t, ([2] : List Nat) = F :: l2t → ([2] : List Int) = yF :: y2t →
        iter_deref s'.heap F = some yF) ∧
      ∀ x, x ∉ 0 :: ([3] ++ 1 :: [2]) → s'.heap x = S3.heap x) :=
  ⟨by decide, by decide, by decide,
    @erase_unlinks_returns_next S3 0 1 [3] [2] [0] [2] 1 (by decide) (by decide)⟩

/-! The ring-preserving public mutations, as an operation language used to
state the ring invariant and copy independence. -/

/-- One public mutating call: `push_back`, `push_front`, `pop_front`,
`pop_back`, or `erase` at the position reached by advancing `begin()`
`i` times. -/
inductive Op where
  | pushB (d : Int)
  | pushF (d : Int)
  | popF
  | popB
  | eraseAt (i : Nat)

/-- Run one public call on the list at head `hd`. -/
def applyOp (op : Op) (s : St) (hd : Option Nat) : Option St :=
  match op with
  | .pushB d => push_back s hd d
  | .pushF d => push_front s hd d
  | .popF => pop_front s hd
  | .popB => pop_back s hd
  | .eraseAt i => do
    let a ← hd
    let t ← nextPow s.heap a (i + 1)
    let p ← erase s t
    pure p.1

/-- Abstract effect of a call on the value sequence. -/
def opXs (op : Op) (xs : List Int) : List Int :=
  match op with
  | .pushB d => xs ++ [d]
  | .pushF d => d :: xs
  | .popF => xs.tail
  | .popB => xs.dropLast
  | .eraseAt i => xs.eraseIdx i

/-- Abstract effect of a call on the address sequence (`n` = the fresh
address a push allocates). -/
def opAddrs (op : Op) (as : List Nat) (n : Nat) : List Nat :=
  match op with
  | .pushB _ => as ++ [n]
  | .pushF _ => n :: as
  | .popF => as.tail
  | .popB => as.dropLast
  | .eraseAt i => as.eraseIdx i

/-- The call's contract: pops need a non-empty list, `erase` a real
position.  (Calling outside the contract runs into the sentinel, see the
pop-on-empty theorem.) -/
def opValid (op : Op) (xs : List Int) : Prop :=
  match op with
  | .pushB _ => True
  | .pushF _ => True
  | .popF => xs ≠ []
  | .popB => xs ≠ []
  | .eraseAt i => i < xs.length

/-- Every in-contract public mutation succeeds, preserves the ring
representation with the corresponding abstract effect, never shrinks the
allocation counter, modifies no previously allocated cell outside the ring,
and keeps the footprint inside the old ring plus the fresh address. -/
theorem applyOp_preserve {op : Op} {s : St} {a0 : Nat} {as : List Nat}
    {xs : List Int} (hrep : listRep s a0 as xs) (hv : opValid op xs) :
    ∃ s', applyOp op s (some a0) = some s' ∧
      listRep s' a0 (opAddrs op as s.ctr) (opXs op xs) ∧
      s.ctr ≤ s'.ctr ∧
      (∀ x, x ∉ a0 :: as → x < s.ctr → s'.heap x = s.heap x) ∧
      (∀ a ∈ opAddrs op as s.ctr, a ∈ as ∨ a = s.ctr) := by
  cases op with
  | pushB d =>
    rcases push_back_preserve (d := d) hrep with ⟨s', hrun, hrep', hctr, hframe⟩
    refine ⟨s', hrun, hrep', by omega, ?_, ?_⟩
    · intro x hx hlt
      exact hframe x hx (Nat.ne_of_lt hlt)
    · intro a ha
      simp only [opAddrs, List.mem_append, List.mem_singleton] at ha
      tauto
  | pushF d =>
    rcases push_front_preserve (d := d) hrep with ⟨s', hrun, hrep', hctr, hframe⟩
    refine ⟨s', hrun, hrep', by omega, ?_, ?_⟩
    · intro x hx hlt
      exact hframe x hx (Nat.ne_of_lt hlt)
    · intro a ha
      simp only [opAddrs, List.mem_cons] at ha
      tauto
  | popF =>
    have hne : xs ≠ [] := hv
    have hlen := listRep_length hrep
    rcases sentB_iff.mp hrep.2.2 with ⟨nd0, hh0, hprev0, hseg⟩
    cases has : as with
    | nil =>
      rw [has] at hlen
      cases xs with
      | nil => exact absurd rfl hne
      | cons _ _ => simp at hlen
    | cons F as' =>
      cases hxs : xs with
      | nil => exact absurd hxs hne
      | cons x xs' =>
        rw [has, hxs] at hrep
        have hrep2 : listRep s a0 ([] ++ F :: as') ([] ++ x :: xs') := by
          simpa using hrep
        rcases erase_preserve hrep2 (by simp) with
          ⟨s', herase, hrep', hctr, hfreed, hframe⟩
        have hF : nd0.next = F := by
          rw [has] at hseg
          cases hxs2 : xs with
          | nil => exact absurd hxs2 hne
          | cons _ _ =>
            rw [hxs] at hseg
            exact ((segB_cons_iff.mp hseg).1).symm
        refine ⟨s', ?_, ?_, by omega, ?_, ?_⟩
        · simp [applyOp, pop_front, hh0, hF, herase]
        · simpa [opAddrs, opXs] using hrep'
        · intro y hy hlt
          refine hframe y ?_
          simpa using hy
        · intro a ha
          simp only [opAddrs, List.tail_cons] at ha
          exact Or.inl (List.mem_cons_of_mem _ ha)
  | popB =>
    have hne : xs ≠ [] := hv
    have hlen := listRep_length hrep
    have hasne : as ≠ [] := by
      intro he
      rw [he] at hlen
      cases xs with
      | nil => exact hne rfl
      | cons _ _ => simp at hlen
    rcases sentB_iff.mp hrep.2.2 with ⟨nd0, hh0, hprev0, hseg⟩
    have hdecA : as.dropLast ++ [as.getLast hasne] = as :=
      List.dropLast_append_getLast hasne
    have hdecX : xs.dropLast ++ [xs.getLast hne] = xs :=
      List.dropLast_append_getLast hne
    have hlen2 : as.dropLast.length = xs.dropLast.length := by
      rw [List.length_dropLast, List.length_dropLast, hlen]
    have hrep2 : listRep s a0 (as.dropLast ++ as.getLast hasne :: [])
        (xs.dropLast ++ xs.getLast hne :: []) := by
      rw [show as.dropLast ++ as.getLast hasne :: [] = as from hdecA,
        show xs.dropLast ++ xs.getLast hne :: [] = xs from hdecX]
      exact hrep
    rcases erase_preserve hrep2 hlen2 with ⟨s', herase, hrep', hctr, hfreed, hframe⟩
    have hprevL : nd0.prev = as.getLast hasne := by
      rw [hprev0, lastA, List.getLast?_eq_getLast_of_ne_nil hasne]
      rfl
    refine ⟨s', ?_, ?_, by omega, ?_, ?_⟩
    · simp [applyOp, pop_back, hh0, hprevL, herase]
    · simpa [opAddrs, opXs] using hrep'
    · intro y hy hlt
      refine hframe y ?_
      rw [show as.dropLast ++ as.getLast hasne :: [] = as from hdecA]
      exact hy
    · intro a ha
      simp only [opAddrs] at ha
      exact Or.inl (List.dropLast_sublist as |>.subset ha)
  | eraseAt i =>
    have hi : i < xs.length := hv
    have hlen := listRep_length hrep
    have hia : i < as.length := by omega
    rcases sentB_iff.mp hrep.2.2 with ⟨nd0, hh0, hprev0, hseg⟩
    have hwalk := (segB_walk hseg).1 i hia
    have hnext : nextPow s.heap a0 (i + 1) = some (as.getD i 0) := by
      simpa [nextPow, hh0] using hwalk
    have hdecA : as.take i ++ as.getD i 0 :: as.drop (i + 1) = as := by
      rw [List.getD_eq_getElem as 0 hia, ← List.drop_eq_getElem_cons hia,
        List.take_append_drop]
    have hdecX : xs.take i ++ xs.getD i 0 :: xs.drop (i + 1) = xs := by
      rw [List.getD_eq_getElem xs 0 hi, ← List.drop_eq_getElem_cons hi,
        List.take_append_drop]
    have hlen2 : (as.take i).length = (xs.take i).length := by
      rw [List.length_take, List.length_take, hlen]
    have hrep2 : listRep s a0 (as.take i ++ as.getD i 0 :: as.drop (i + 1))
        (xs.take i ++ xs.getD i 0 :: xs.drop (i + 1)) := by
      rw [hdecA, hdecX]; exact hrep
    rcases erase_preserve hrep2 hlen2 with ⟨s', herase, hrep', hctr, hfreed, hframe⟩
    refine ⟨s', ?_, ?_, by omega, ?_, ?_⟩
    · have herase2 : erase s (as[i]?.getD 0) =
          some (s', headA (List.drop (i + 1) as) a0) := by
        rw [← List.getD_eq_getElem?_getD]
        exact herase
      simp [applyOp, hnext, herase2]
    · rw [opAddrs, opXs, List.eraseIdx_eq_take_drop_succ,
        List.eraseIdx_eq_take_drop_succ]
      exact hrep'
    · intro y hy hlt
      refine hframe y ?_
      rw [hdecA]
      exact hy
    · intro a ha
      rw [opAddrs, List.eraseIdx_eq_take_drop_succ] at ha
      rcases List.mem_append.mp ha with h1 | h2
      · exact Or.inl ((List.take_sublist i as).subset h1)
      · exact Or.inl ((List.drop_sublist (i + 1) as).subset h2)

theorem nextPow_add {h : Heap} :
    ∀ (i j a : Nat),
      nextPow h a (i + j) = (nextPow h a i).bind fun b => nextPow h b j := by
  intro i
  induction i with
  | zero => intro j a; simp [nextPow]
  | succ i ih =>
    intro j a
    have he : i + 1 + j = (i + j) + 1 := by omega
    rw [he]
    cases hha : h a with
    | none => simp [nextPow, hha]
    | some nd => simp [nextPow, hha, ih]

/-- Walking `m_next` from the sentinel of a well-formed list stays on the
ring. -/
theorem listRep_reach_mem {s : St} {a0 : Nat} {as : List Nat} {xs : List Int}
    (hrep : listRep s a0 as xs) :
    ∀ k n, nextPow s.heap a0 k = some n → n ∈ a0 :: as := by
  rcases sentB_iff.mp hrep.2.2 with ⟨nd0, hh0, hprev0, hseg⟩
  have hwalk := segB_walk hseg
  intro k
  induction k using Nat.strong_induction_on with
  | _ k ih =>
    intro n hk
    by_cases hk1 : k ≤ as.length
    · cases k with
      | zero =>
        simp [nextPow] at hk
        exact hk ▸ List.mem_cons_self _ _
      | succ j =>
        have hj : j < as.length := by omega
        have := hwalk.1 j hj
        rw [nextPow] at hk
        simp [hh0] at hk
        rw [this] at hk
        have hmem : as[j]?.getD 0 ∈ as := by
          rw [← List.getD_eq_getElem?_getD, List.getD_eq_getElem as 0 hj]
          exact List.getElem_mem hj
        simp at hk
        exact hk ▸ List.mem_cons_of_mem _ hmem
    · have hret : nextPow s.heap a0 (as.length + 1) = some a0 := by
        rw [nextPow]
        simp [hh0]
        exact hwalk.2
      have hdec : k = (as.length + 1) + (k - (as.length + 1)) := by omega
      rw [hdec, nextPow_add, hret] at hk
      simp at hk
      exact ih (k - (as.length + 1)) (by omega) n hk
/-- The walk first returns to the sentinel after exactly `length + 1`
steps. -/
theorem listRep_return {s : St} {a0 : Nat} {as : List Nat} {xs : List Int}
    (hrep : listRep s a0 as xs) :
    nextPow s.heap a0 (as.length + 1) = some a0 ∧
    ∀ k, 0 < k → k < as.length + 1 → nextPow s.heap a0 k ≠ some a0 := by
  rcases sentB_iff.mp hrep.2.2 with ⟨nd0, hh0, hprev0, hseg⟩
  have hwalk := segB_walk hseg
  constructor
  · rw [nextPow]
    simp [hh0]
    exact hwalk.2
  · intro k hk0 hklt he
    cases k with
    | zero => simp at hk0
    | succ j =>
      have hj : j < as.length := by omega
      have hwj := hwalk.1 j hj
      rw [nextPow] at he
      simp [hh0] at he
      rw [hwj] at he
      simp at he
      have hmem : as[j]?.getD 0 ∈ as := by
        rw [← List.getD_eq_getElem?_getD, List.getD_eq_getElem as 0 hj]
        exact List.getElem_mem hj
      exact listRep_mem_ne_sent hrep _ hmem he

/-- Inverse-link laws hold along a segment whose two ends close properly. -/
theorem segB_pointwise {h : Heap} :
    ∀ {as : List Nat} {xs : List Int} {p f stop : Nat},
      segB h p f as xs stop = true →
      (∃ pd, h p = some pd ∧ pd.next = f) →
      (∃ sd, h stop = some sd ∧ sd.prev = lastA p as) →
      ∀ n ∈ as, ∃ nd, h n = some nd ∧
        (∃ pd, h nd.prev = some pd ∧ pd.next = n) ∧
        (∃ xd, h nd.next = some xd ∧ xd.prev = n) := by
  intro as
  induction as with
  | nil => intro xs p f stop _ _ _ n hn; cases hn
  | cons a as' ih =>
    intro xs p f stop hs hp hstop n hn
    cases xs with
    | nil => simp [segB_xs_nil] at hs
    | cons x xs' =>
      rcases segB_cons_iff.mp hs with ⟨haf, nd, hha, hdta, hpr, htail⟩
      rcases List.mem_cons.mp hn with h1 | h2
      · subst h1
        rcases hp with ⟨pd, hpd, hpdn⟩
        refine ⟨nd, hha, ⟨pd, by rw [hpr]; exact hpd, by rw [hpdn, haf]⟩, ?_⟩
        cases as' with
        | nil =>
          have hxs : xs' = [] := by
            have := segB_length htail
            cases xs' with
            | nil => rfl
            | cons _ _ => simp at this
          subst hxs
          have hnext : nd.next = stop := segB_nil_iff.mp htail
          rcases hstop with ⟨sd, hsd, hsdp⟩
          refine ⟨sd, by rw [hnext]; exact hsd, ?_⟩
          rw [hsdp, lastA_singleton]
        | cons b bs =>
          cases xs' with
          | nil => simp [segB_xs_nil] at htail
          | cons xb xbs =>
            rcases segB_cons_iff.mp htail with ⟨hbf, nb, hhb, _, hbp, _⟩
            exact ⟨nb, by rw [← hbf]; exact hhb, hbp⟩
      · refine ih htail ⟨nd, hha, rfl⟩ ?_ n h2
        rcases hstop with ⟨sd, hsd, hsdp⟩
        refine ⟨sd, hsd, ?_⟩
        rw [hsdp]
        cases as' with
        | nil => cases h2
        | cons b bs => rw [lastA_cons_cons]

/-- Inverse-link laws for every node of a well-formed ring (the sentinel
included). -/
theorem listRep_pointwise {s : St} {a0 : Nat} {as : List Nat} {xs : List Int}
    (hrep : listRep s a0 as xs) :
    ∀ n ∈ a0 :: as, ∃ nd, s.heap n = some nd ∧
      (∃ pd, s.heap nd.prev = some pd ∧ pd.next = n) ∧
      (∃ xd, s.heap nd.next = some xd ∧ xd.prev = n) := by
  rcases sentB_iff.mp hrep.2.2 with ⟨nd0, hh0, hprev0, hseg⟩
  intro n hn
  rcases List.mem_cons.mp hn with h1 | h2
  · subst h1
    refine ⟨nd0, hh0, ?_, ?_⟩
    · cases has : as with
      | nil =>
        rw [has] at hseg hprev0
        cases xs with
        | cons _ _ => simp [segB_as_nil] at hseg
        | nil =>
          have hnx : nd0.next = n := segB_nil_iff.mp hseg
          have hpr : nd0.prev = n := by simpa [lastA] using hprev0
          exact ⟨nd0, by rw [hpr]; exact hh0, by rw [hnx]⟩
      | cons c cs =>
        have hnodup : as.Nodup := (List.nodup_cons.mp hrep.1).2
        rw [has] at hseg hprev0 hnodup
        rcases segB_retarget (by simp) hnodup hseg with ⟨ndL, hhL, hnxL, -⟩
        exact ⟨ndL, by rw [hprev0]; exact hhL, hnxL⟩
    · cases has : as with
      | nil =>
        rw [has] at hseg hprev0
        cases xs with
        | cons _ _ => simp [segB_as_nil] at hseg
        | nil =>
          have hnx : nd0.next = n := segB_nil_iff.mp hseg
          have hpr : nd0.prev = n := by simpa [lastA] using hprev0
          exact ⟨nd0, by rw [hnx]; exact hh0, by rw [hpr]⟩
      | cons c cs =>
        rw [has] at hseg
        cases xs with
        | nil => simp [segB_xs_nil] at hseg
        | cons x xs' =>
          rcases segB_cons_iff.mp hseg with ⟨hcf, nc, hhc, -, hcp, -⟩
          exact ⟨nc, by rw [← hcf]; exact hhc, hcp⟩
  · exact segB_pointwise hseg ⟨nd0, hh0, rfl⟩ ⟨nd0, hh0, hprev0⟩ n h2

/-- Ring observations named by the invariant claim: every node reachable
from the head satisfies `n.prev.next == n` and `n.next.prev == n`, walking
`m_next` from the head first returns to it after exactly `count + 1` steps,
and `size()` evaluates to `count`. -/
def ringClosed (s : St) (a0 : Nat) (count : Nat) : Prop :=
  (∀ k n, nextPow s.heap a0 k = some n →
    ∃ nd, s.heap n = some nd ∧
      (∃ pd, s.heap nd.prev = some pd ∧ pd.next = n) ∧
      (∃ xd, s.heap nd.next = some xd ∧ xd.prev = n)) ∧
  nextPow s.heap a0 (count + 1) = some a0 ∧
  (∀ k, 0 < k → k < count + 1 → nextPow s.heap a0 k ≠ some a0) ∧
  size (count + 1) s (some a0) = some count

/-- A well-formed ring satisfies all the ring observations. -/
theorem listRep_ringClosed {s : St} {a0 : Nat} {as : List Nat}
    {xs : List Int} (hrep : listRep s a0 as xs) :
    ringClosed s a0 xs.length := by
  have hlen := listRep_length hrep
  refine ⟨?_, ?_, ?_, ?_⟩
  · intro k n hk
    exact listRep_pointwise hrep n (listRep_reach_mem hrep k n hk)
  · rw [← hlen]; exact (listRep_return hrep).1
  · rw [← hlen]; exact (listRep_return hrep).2
  · rw [← hlen]
    exact listRep_size hrep _ (Nat.lt_succ_self _)

/-- `C6` (amended): after each ring-preserving public operation — `push_back`,
`push_front`, `pop_front`/`pop_back` on a non-empty list, `erase` at a real
element — the node graph is again a single circular doubly-linked ring
anchored at the sentinel: every node reachable from the head satisfies
`n.prev.next == n` and `n.next.prev == n`, and following `next` from the
head returns to it after exactly `size() + 1` steps, with `size()` the
element count.  (The unamended claim — after *every* public operation — is
refuted by `clear()`, which destroys the sentinel; see the counterexample.) -/
theorem ring_invariant_after_op {s : St} {a0 : Nat} {as : List Nat}
    {xs : List Int} {op : Op}
    (hrep : listRep s a0 as xs) (hv : opValid op xs) :
    ∃ s', applyOp op s (some a0) = some s' ∧
      ∃ as', listRep s' a0 as' (opXs op xs) ∧
        ringClosed s' a0 (opXs op xs).length := by
  rcases applyOp_preserve hrep hv with ⟨s', hrun, hrep', -, -, -⟩
  exact ⟨s', hrun, opAddrs op as s.ctr, hrep', listRep_ringClosed hrep'⟩

/-- Witness: `push_back(2)` on the one-element list `[1]`. -/
theorem ring_invariant_after_op_w :
    listRep S1 0 [1] [1] ∧ opValid (Op.pushB 2) [1] ∧
    (∃ s', applyOp (Op.pushB 2) S1 (some 0) = some s' ∧
      ∃ as', listRep s' 0 as' (opXs (Op.pushB 2) [1]) ∧
        ringClosed s' 0 (opXs (Op.pushB 2) [1]).length) :=
  ⟨by decide, True.intro,
    @ring_invariant_after_op S1 0 [1] [1] (Op.pushB 2) (by decide) True.intro⟩

/-- Counterexample to `C6` as stated: `clear()` is a public operation, and
after `clear()` on the default-constructed list the head is null — no
sentinel-anchored ring exists in the resulting state (no representation at
any sentinel address matches the returned null head). -/
theorem clear_no_ring_counterexample :
    ∃ p, clear 1 sc0.1 sc0.2 = some p ∧ p.2 = none ∧
      ∀ a0 as xs, ¬ (p.2 = some a0 ∧ listRep p.1 a0 as xs) := by
  refine ⟨⟨⟨hfree (hupd (fun _ => none) 0 ⟨0, 0, 0⟩) 0, 1⟩, none⟩, rfl, rfl, ?_⟩
  rintro a0 as xs ⟨h1, -⟩
  exact Option.noConfusion h1

/-- The `__M_clone` loop copies the source segment, node by node in
traversal order, onto the clone's ring; it allocates only fresh cells and
touches nothing else. -/
theorem clone_loop_preserve :
    ∀ {as2 : List Nat} {xs2 : List Int} {s : St} {cursor a0 p src : Nat}
      {cs : List Nat} {ys : List Int},
      segB s.heap p src as2 xs2 a0 = true →
      listRep s cursor cs ys →
      (∀ a ∈ as2, a < s.ctr) →
      (∀ a ∈ as2, a ≠ a0) →
      (∀ a ∈ as2, a ∉ cursor :: cs) →
      ∀ fuel, as2.length < fuel →
      ∃ s' cs', clone_loop fuel s cursor src a0 = some s' ∧
        listRep s' cursor (cs ++ cs') (ys ++ xs2) ∧
        s.ctr ≤ s'.ctr ∧
        (∀ a ∈ cs', s.ctr ≤ a) ∧
        (∀ x, x < s.ctr → x ∉ cursor :: cs → s'.heap x = s.heap x) := by
  intro as2
  induction as2 with
  | nil =>
    intro xs2 s cursor a0 p src cs ys hseg hrep _ _ _ fuel hfuel
    cases xs2 with
    | cons _ _ => simp [segB_as_nil] at hseg
    | nil =>
      have hsrc : src = a0 := segB_nil_iff.mp hseg
      cases fuel with
      | zero => simp at hfuel
      | succ fuel =>
        refine ⟨s, [], ?_, ?_, Nat.le_refl _, by simp, fun x _ _ => rfl⟩
        · simp [clone_loop, hsrc]
        · simpa using hrep
  | cons a as2' ih =>
    intro xs2 s cursor a0 p src cs ys hseg hrep hbnd hne hdisj fuel hfuel
    cases xs2 with
    | nil => simp [segB_xs_nil] at hseg
    | cons x xs2' =>
      rcases segB_cons_iff.mp hseg with ⟨haf, nd, hha, hdta, hpr, htail⟩
      subst haf
      have hsrcne : a ≠ a0 := hne a (List.mem_cons_self _ _)
      have hsrclt : a < s.ctr := hbnd a (List.mem_cons_self _ _)
      have hsrcdisj : a ∉ cursor :: cs := hdisj a (List.mem_cons_self _ _)
      cases fuel with
      | zero => simp at hfuel
      | succ fuel =>
        rcases append_node_preserve (d := x) hrep with ⟨s2, happEq, hrep2, hctr2, hframe2⟩
        have happ2 : (Node_push_back (hupd s.heap s.ctr ⟨x, s.ctr, s.ctr⟩)
            cursor s.ctr).bind (fun h => some (⟨h, s.ctr + 1⟩ : St)) = some s2 := by
          simpa [append_node, __M_create_node] using happEq
        cases hNPB : Node_push_back (hupd s.heap s.ctr ⟨x, s.ctr, s.ctr⟩)
            cursor s.ctr with
        | none => rw [hNPB] at happ2; simp at happ2
        | some hh =>
          rw [hNPB] at happ2
          simp at happ2
          have hs2 : s2 = (⟨hh, s.ctr + 1⟩ : St) := happ2.symm
          have hheap2src : s2.heap a = some nd := by
            rw [hframe2 a hsrcdisj (Nat.ne_of_lt hsrclt)]
            exact hha
          have hstep : clone_loop (fuel + 1) s cursor a a0 =
              clone_loop fuel s2 cursor nd.next a0 := by
            rw [hs2]
            have hhha : hh a = some nd := by
              rw [hs2] at hheap2src
              exact hheap2src
            simp [clone_loop, hsrcne, hha, hdta, __M_create_node, hNPB, hhha]
          have htail2 : segB s2.heap a nd.next as2' xs2' a0 = true := by
            refine segB_frame (fun b hb => ?_) htail
            exact hframe2 b (hdisj b (List.mem_cons_of_mem _ hb))
              (Nat.ne_of_lt (hbnd b (List.mem_cons_of_mem _ hb)))
          have hbnd2 : ∀ b ∈ as2', b < s2.ctr := fun b hb => by
            have := hbnd b (List.mem_cons_of_mem _ hb)
            omega
          have hne2 : ∀ b ∈ as2', b ≠ a0 :=
            fun b hb => hne b (List.mem_cons_of_mem _ hb)
          have hdisj2 : ∀ b ∈ as2', b ∉ cursor :: (cs ++ [s.ctr]) := by
            intro b hb hmem
            rcases List.mem_cons.mp hmem with h1 | h2
            · exact hdisj b (List.mem_cons_of_mem _ hb) (h1 ▸ List.mem_cons_self _ _)
            · rcases List.mem_append.mp h2 with h3 | h4
              · exact hdisj b (List.mem_cons_of_mem _ hb) (List.mem_cons_of_mem _ h3)
              · simp at h4
                have := hbnd b (List.mem_cons_of_mem _ hb)
                omega
          rcases ih htail2 hrep2 hbnd2 hne2 hdisj2 fuel (by simpa using hfuel) with
            ⟨s', cs'', hloop, hrep', hctr', hfresh', hframe'⟩
          refine ⟨s', s.ctr :: cs'', ?_, ?_, by omega, ?_, ?_⟩
          · rw [hstep]; exact hloop
          · have e1 : (cs ++ [s.ctr]) ++ cs'' = cs ++ (s.ctr :: cs'') := by simp
            have e2 : (ys ++ [x]) ++ xs2' = ys ++ (x :: xs2') := by simp
            rw [← e1, ← e2]
            exact hrep'
          · intro b hb
            rcases List.mem_cons.mp hb with h1 | h2
            · omega
            · have := hfresh' b h2
              omega
          · intro z hz hzdisj
            have hzctr : z ≠ s.ctr := by omega
            have h1 : s'.heap z = s2.heap z := by
              refine hframe' z (by omega) ?_
              intro hmem
              rcases List.mem_cons.mp hmem with h3 | h4
              · exact hzdisj (h3 ▸ List.mem_cons_self _ _)
              · rcases List.mem_append.mp h4 with h5 | h6
                · exact hzdisj (List.mem_cons_of_mem _ h5)
                · simp at h6
                  exact hzctr h6
            rw [h1]
            exact hframe2 z hzdisj hzctr

/-- `list(const list&)` clones the source node-by-node in traversal order:
it yields an independent ring with its own fresh sentinel (`s.ctr`) and an
equal element sequence, leaves the source ring untouched, and writes only
fresh cells. -/
theorem copy_ctor_ok {s : St} {a0 : Nat} {as : List Nat} {xs : List Int}
    {fuel : Nat} (hrep : listRep s a0 as xs) (hfuel : as.length < fuel) :
    ∃ s' bs, copy_ctor fuel s (some a0) = some (s', some s.ctr) ∧
      listRep s' s.ctr bs xs ∧ listRep s' a0 as xs ∧
      (∀ m ∈ s.ctr :: bs, ∀ l ∈ a0 :: as, m ≠ l) ∧
      s.ctr < s'.ctr ∧
      (∀ x, x < s.ctr → s'.heap x = s.heap x) := by
  obtain ⟨hnodup, hbound, hsent⟩ := hrep
  rcases sentB_iff.mp hsent with ⟨nd0, hh0, hprev0, hseg⟩
  have ha0lt : a0 < s.ctr := hbound a0 (List.mem_cons_self _ _)
  have ha0ne : a0 ≠ s.ctr := Nat.ne_of_lt ha0lt
  have hrepC : listRep (⟨hupd s.heap s.ctr ⟨0, s.ctr, s.ctr⟩, s.ctr + 1⟩ : St)
      s.ctr [] [] := by
    refine ⟨by simp, ?_, ?_⟩
    · intro b hb
      simp at hb
      show b < s.ctr + 1
      omega
    · exact sentB_iff.mpr ⟨⟨0, s.ctr, s.ctr⟩, hupd_same, by simp [lastA],
        segB_nil_iff.mpr rfl⟩
  cases has : as with
  | nil =>
    have hxs : xs = [] := by
      have := segB_length hseg
      rw [has] at this
      exact List.length_eq_zero.mp this.symm
    subst hxs
    rw [has] at hseg hprev0
    have hnx0 : nd0.next = a0 := segB_nil_iff.mp hseg
    have hpr0 : nd0.prev = a0 := by simpa [lastA] using hprev0
    cases fuel with
    | zero => simp at hfuel
    | succ fuel =>
      have hrun : copy_ctor (fuel + 1) s (some a0) =
          some (⟨hupd s.heap s.ctr ⟨0, s.ctr, s.ctr⟩, s.ctr + 1⟩, some s.ctr) := by
        simp [copy_ctor, __M_create_node, hh0, hnx0, hpr0, hupd_ne ha0ne,
          clone_loop]
      have hrepS : listRep s a0 [] [] := by
        refine ⟨?_, ?_, ?_⟩
        · rw [← has]; exact hnodup
        · intro b hb; rw [← has] at hb; exact hbound b hb
        · exact sentB_iff.mpr ⟨nd0, hh0, hprev0, hseg⟩
      refine ⟨_, [], hrun, hrepC, ?_, ?_, Nat.lt_succ_self s.ctr, ?_⟩
      · refine listRep_frame hrepS ?_ (Nat.le_succ s.ctr)
        intro b hb
        simp at hb
        subst hb
        exact hupd_ne ha0ne
      · intro m hm l hl
        simp at hm
        subst hm
        rcases List.mem_cons.mp hl with h1 | h2
        · rw [h1]; omega
        · cases h2
      · intro z hz
        exact hupd_ne (Nat.ne_of_lt hz)
  | cons F as' =>
    rw [has] at hseg
    cases xs with
    | nil => simp [segB_xs_nil] at hseg
    | cons x xs' =>
      rcases segB_cons_iff.mp hseg with ⟨hFf, ndF, hhF, hdF, hpF, htailF⟩
      rw [← hFf] at hseg
      have hFlt : F < s.ctr := hbound F (by rw [has]; simp)
      have hFne : F ≠ s.ctr := Nat.ne_of_lt hFlt
      have hseg2 : segB (hupd s.heap s.ctr ⟨0, s.ctr, s.ctr⟩) a0 F
          (F :: as') (x :: xs') a0 = true := by
        refine segB_frame (fun b hb => ?_) hseg
        have : b < s.ctr := hbound b (by rw [has]; exact List.mem_cons_of_mem _ hb)
        exact hupd_ne (Nat.ne_of_lt this)
      rcases clone_loop_preserve hseg2 hrepC
          (by intro b hb
              have : b < s.ctr := hbound b (by rw [has]; exact List.mem_cons_of_mem _ hb)
              simp
              omega)
          (by intro b hb
              have hbmem : b ∈ as := by rw [has]; exact hb
              exact fun he => (List.nodup_cons.mp hnodup).1 (he ▸ hbmem))
          (by intro b hb
              have : b < s.ctr := hbound b (by rw [has]; exact List.mem_cons_of_mem _ hb)
              simp
              omega)
          fuel (by rw [has] at hfuel; simpa using hfuel) with
        ⟨s', cs', hloop, hrep', hctr', hfresh', hframe'⟩
      have hF' : nd0.next = F := hFf.symm
      have hrun : copy_ctor fuel s (some a0) = some (s', some s.ctr) := by
        simp [copy_ctor, __M_create_node, hh0, hF', hupd_ne hFne, hhF, hpF,
          hloop]
      have hctrle : s.ctr + 1 ≤ s'.ctr := hctr'
      have hrepS : listRep s a0 (F :: as') (x :: xs') := by
        refine ⟨?_, ?_, ?_⟩
        · rw [← has]; exact hnodup
        · intro b hb; rw [← has] at hb; exact hbound b hb
        · rw [← has]
          exact hsent
      refine ⟨s', cs', hrun, by simpa using hrep', ?_, ?_, by omega, ?_⟩
      · refine listRep_frame hrepS ?_ (by omega)
        intro b hb
        rw [← has] at hb
        have hblt : b < s.ctr := hbound b hb
        have h1 : s'.heap b = (hupd s.heap s.ctr ⟨0, s.ctr, s.ctr⟩) b := by
          refine hframe' b (by show b < s.ctr + 1; omega) ?_
          intro hmem
          simp at hmem
          omega
        rw [h1]
        exact hupd_ne (Nat.ne_of_lt hblt)
      · intro m hm l hl
        have hllt : l < s.ctr := hbound l (by rw [← has] at hl; exact hl)
        rcases List.mem_cons.mp hm with h1 | h2
        · subst h1; omega
        · have hge : s.ctr + 1 ≤ m := hfresh' m h2
          omega
      · intro z hz
        have h1 : s'.heap z = (hupd s.heap s.ctr ⟨0, s.ctr, s.ctr⟩) z := by
          refine hframe' z (by show z < s.ctr + 1; omega) ?_
          intro hmem
          simp at hmem
          omega
        rw [h1]
        exact hupd_ne (Nat.ne_of_lt hz)

/-- Run a sequence of public calls on the list at head `hd`. -/
def applyOps : List Op → St → Option Nat → Option St
  | [], s, _ => some s
  | op :: ops, s, hd => do
    let s1 ← applyOp op s hd
    applyOps ops s1 hd

/-- Abstract effect of a call sequence on the value sequence. -/
def opsXs : List Op → List Int → List Int
  | [], xs => xs
  | op :: ops, xs => opsXs ops (opXs op xs)

/-- Every call of the sequence is within its contract on the sequence it
meets. -/
def validOps : List Op → List Int → Prop
  | [], _ => True
  | op :: ops, xs => opValid op xs ∧ validOps ops (opXs op xs)

/-- Mutating one list never changes the representation of a second,
footprint-disjoint list: the mutated list only writes its own ring and
fresh cells. -/
theorem applyOps_frame :
    ∀ {ops : List Op} {s : St} {a0 : Nat} {as : List Nat} {xs : List Int}
      {b0 : Nat} {bs : List Nat} {ys : List Int},
      listRep s a0 as xs → listRep s b0 bs ys →
      (∀ l ∈ a0 :: as, ∀ m ∈ b0 :: bs, l ≠ m) →
      validOps ops ys →
      ∃ s' bs', applyOps ops s (some b0) = some s' ∧
        listRep s' a0 as xs ∧ listRep s' b0 bs' (opsXs ops ys) := by
  intro ops
  induction ops with
  | nil =>
    intro s a0 as xs b0 bs ys ha hb _ _
    exact ⟨s, bs, rfl, ha, hb⟩
  | cons op ops ih =>
    intro s a0 as xs b0 bs ys ha hb hdisj hvalid
    rcases hvalid with ⟨hv, hvrest⟩
    rcases applyOp_preserve hb hv with ⟨s1, hrun, hb1, hctr, hframe, hfoot⟩
    have ha1 : listRep s1 a0 as xs := by
      refine listRep_frame ha (fun x hx => ?_) hctr
      refine hframe x (fun hm => hdisj x hx x hm rfl) (ha.2.1 x hx)
    have hdisj1 : ∀ l ∈ a0 :: as, ∀ m ∈ b0 :: opAddrs op bs s.ctr, l ≠ m := by
      intro l hl m hm
      rcases List.mem_cons.mp hm with h1 | h2
      · exact h1 ▸ hdisj l hl b0 (List.mem_cons_self _ _)
      · rcases hfoot m h2 with h3 | h4
        · exact hdisj l hl m (List.mem_cons_of_mem _ h3)
        · have := ha.2.1 l hl
          omega
    rcases ih ha1 hb1 hdisj1 hvrest with ⟨s', bs', happly, ha', hb'⟩
    refine ⟨s', bs', ?_, ha', hb'⟩
    simp [applyOps, hrun, happly]

/-- `C8`: copy construction clones the source node-by-node in traversal
order into an independent ring with an equal element sequence and its own
sentinel; afterwards, any in-contract sequence of push/pop/erase calls on
the copy leaves the original's representation (and hence its observable
sequence) unchanged, and vice versa. -/
theorem copy_independent {s : St} {a0 : Nat} {as : List Nat} {xs : List Int}
    {fuel : Nat} (hrep : listRep s a0 as xs) (hfuel : as.length < fuel) :
    ∃ s' b0 bs, copy_ctor fuel s (some a0) = some (s', some b0) ∧
      listRep s' b0 bs xs ∧ listRep s' a0 as xs ∧
      readSeq (xs.length + 1) s' (some b0) = some xs ∧
      readSeq (xs.length + 1) s' (some a0) = some xs ∧
      (∀ ops, validOps ops xs →
        ∃ s2, applyOps ops s' (some b0) = some s2 ∧ listRep s2 a0 as xs ∧
          readSeq (xs.length + 1) s2 (some a0) = some xs) ∧
      (∀ ops, validOps ops xs →
        ∃ s2, applyOps ops s' (some a0) = some s2 ∧ listRep s2 b0 bs xs ∧
          readSeq (xs.length + 1) s2 (some b0) = some xs) := by
  rcases copy_ctor_ok hrep hfuel with ⟨s', bs, hrun, hbrep, harep, hdisj, hctr, hframe⟩
  have hlen := listRep_length harep
  have hlenb := listRep_length hbrep
  refine ⟨s', s.ctr, bs, hrun, hbrep, harep, ?_, ?_, ?_, ?_⟩
  · exact listRep_readSeq hbrep _ (by omega)
  · exact listRep_readSeq harep _ (by omega)
  · intro ops hops
    rcases applyOps_frame harep hbrep
        (fun l hl m hm => (hdisj m hm l hl).symm) hops with ⟨s2, bs', happly, ha2, -⟩
    have hlen2 := listRep_length ha2
    exact ⟨s2, happly, ha2, listRep_readSeq ha2 _ (by omega)⟩
  · intro ops hops
    rcases applyOps_frame hbrep harep
        (fun m hm l hl => hdisj m hm l hl) hops with ⟨s2, as2, happly, hb2, -⟩
    have hlen2 := listRep_length hb2
    exact ⟨s2, happly, hb2, listRep_readSeq hb2 _ (by omega)⟩

/-- Witness: copying the one-element list `[1]` and mutating the copy by
`push_back(7)` then `pop_front()` (and, in the other direction, mutating
the original). -/
theorem copy_independent_w :
    listRep S1 0 [1] [1] ∧ ([1] : List Nat).length < 2 ∧
    validOps [Op.pushB 7, Op.popF] [1] ∧
    (∃ s' b0 bs, copy_ctor 2 S1 (some 0) = some (s', some b0) ∧
      listRep s' b0 bs [1] ∧ listRep s' 0 [1] [1] ∧
      readSeq (([1] : List Int).length + 1) s' (some b0) = some [1] ∧
      readSeq (([1] : List Int).length + 1) s' (some 0) = some [1] ∧
      (∀ ops, validOps ops [1] →
        ∃ s2, applyOps ops s' (some b0) = some s2 ∧ listRep s2 0 [1] [1] ∧
          readSeq (([1] : List Int).length + 1) s2 (some 0) = some [1]) ∧
      (∀ ops, validOps ops [1] →
        ∃ s2, applyOps ops s' (some 0) = some s2 ∧ listRep s2 b0 bs [1] ∧
          readSeq (([1] : List Int).length + 1) s2 (some b0) = some [1])) :=
  ⟨by decide, by decide, ⟨True.intro, by simp [opValid, opXs], True.intro⟩,
    @copy_independent S1 0 [1] [1] 2 (by decide) (by decide)⟩

/-- `C9` (body semantics): the body of the friend `swap` exchanges exactly
the two head pointers and touches no node, so afterwards the first list
reads out the second's former sequence and conversely; the body cannot
throw (it is two pointer moves).  The declaration itself, however, takes
`forward_list&` parameters — see the claim record. -/
theorem swap_body_exchanges {s : St} {a0 b0 : Nat} {as bs : List Nat}
    {xs ys : List Int} {fuel : Nat}
    (ha : listRep s a0 as xs) (hb : listRep s b0 bs ys)
    (hf1 : as.length < fuel) (hf2 : bs.length < fuel) :
    swap_body (some a0) (some b0) = (some b0, some a0) ∧
    readSeq fuel s ((swap_body (some a0) (some b0)).1) = some ys ∧
    readSeq fuel s ((swap_body (some a0) (some b0)).2) = some xs :=
  ⟨rfl, listRep_readSeq hb fuel hf2, listRep_readSeq ha fuel hf1⟩

/-- Witness: swapping `a = [5]` and `b = [1, 2]` in the two-list arena. -/
theorem swap_body_exchanges_w :
    listRep SAB.1 0 [1] [5] ∧ listRep SAB.1 2 [3, 4] [1, 2] ∧
    (swap_body (some 0) (some 2) = (some 2, some 0) ∧
     readSeq 3 SAB.1 ((swap_body (some 0) (some 2)).1) = some [1, 2] ∧
     readSeq 3 SAB.1 ((swap_body (some 0) (some 2)).2) = some [5]) :=
  ⟨by decide, by decide,
    @swap_body_exchanges SAB.1 0 2 [1] [3, 4] [5] [1, 2] 3
      (by decide) (by decide) (by decide) (by decide)⟩

end list
